import Mathlib

/-! # M3U8 Pro Player: manifest detection and per-tab registry

A shallow embedding of `background.js` (URL matcher, per-tab registry, event
listeners), of the text scan and the reporting paths of `content.js`, and of
the choice of the player in `popup.js`, followed by theorems about them.

Conventions of the embedding.

* JavaScript strings are Lean `String`s (sequences of code points).
* A JavaScript call that may throw returns `Except JsError α`; `try/catch`
  is a `match` on that result.
* The browser built-ins `new URL(..)` and `decodeURIComponent(..)` are not
  code of the extension.  They are fields of a `Host`, and every general
  theorem holds for all hosts.  `stdHost` is a concrete host for a documented
  fragment of the URL Standard, used to evaluate the code on concrete URLs.
* `Date.now()` is an explicit argument, `chrome.action.*` calls are appended
  to an effect log, and `console.log` (diagnostics only) is left out.
-/

namespace M3U8

/-! ## JavaScript string primitives -/

/-- The exceptions the platform built-ins used by the extension can throw. -/
inductive JsError where
  | typeError
  | uriError
  deriving DecidableEq, Repr

/-- `s.toLowerCase()`.  Letters `A`..`Z` are lowered and every other code
point is kept.  The source only compares the result with the ASCII texts
`.m3u8` and `content-type`; no code point outside ASCII lowers to a character
of these texts, so for those comparisons this agrees with the Unicode
lowering of the platform. -/
def toLowerCase (s : String) : String := ⟨s.data.map Char.toLower⟩

/-- `s.endsWith(suffix)`. -/
def endsWith (s suffix : String) : Bool := suffix.data.reverse.isPrefixOf s.data.reverse

/-- Whether `sub` occurs in the character list as a contiguous block. -/
def includesList (sub : List Char) : List Char → Bool
  | [] => sub.isPrefixOf []
  | c :: cs => sub.isPrefixOf (c :: cs) || includesList sub cs

/-- `s.includes(sub)`. -/
def includes (s sub : String) : Bool := includesList sub.data s.data

/-- Truthiness of a string value: every string but the empty one. -/
def truthyStr (s : String) : Bool := s.data != []

/-- Truthiness of a `string | null` value. -/
def truthy : Option String → Bool
  | none => false
  | some s => truthyStr s

/-! ## The platform interface -/

/-- The properties of a `URL` object that the extension reads.  `searchParams`
is the list of decoded name/value pairs behind `URLSearchParams`. -/
structure URLObject where
  pathname : String
  hostname : String
  searchParams : List (String × String)
  deriving DecidableEq, Repr

/-- The browser built-ins the extension calls. -/
structure Host where
  /-- `new URL(s)`; an error is the `TypeError` of an unparsable input. -/
  newURL : String → Except JsError URLObject
  /-- `new URL(s, base)`. -/
  newURLWithBase : String → String → Except JsError URLObject
  /-- `decodeURIComponent(s)`; an error is the `URIError` of a malformed
  percent sequence. -/
  decodeURIComponent : String → Except JsError String

/-- `searchParams.get(name)`: the value of the first pair called `name`, or
`null`. -/
def searchParamsGet (sp : List (String × String)) (name : String) : Option String :=
  (sp.find? (fun kv => kv.1 == name)).map (fun kv => kv.2)

/-! ## background.js: the URL matcher -/

/-- The constant `possibleParams` of `extractM3U8Url`. -/
def possibleParams : List String :=
  ["url", "src", "source", "stream", "video", "link", "file"]

/-- The `for (const param of possibleParams)` loop of `extractM3U8Url`, run
over the parameter names still to be visited.  `.ok none` means the loop ran
to its end without returning. -/
def scanParams (H : Host) (sp : List (String × String)) :
    List String → Except JsError (Option String)
  | [] => .ok none
  | param :: rest =>
    match searchParamsGet sp param with
    | none => scanParams H sp rest
    | some paramValue =>
      if truthyStr paramValue then
        match H.decodeURIComponent paramValue with
        | .error e => .error e
        | .ok decodedValue =>
          if includes (toLowerCase decodedValue) ".m3u8" then .ok (some decodedValue)
          else scanParams H sp rest
      else scanParams H sp rest

/-- The body of the `try` block of `extractM3U8Url`, given the parser call to
use (`background.js` parses without a base, `content.js` with one). -/
def extractBody (H : Host) (parse : String → Except JsError URLObject) (url : String) :
    Except JsError (Option String) :=
  match parse url with
  | .error e => .error e
  | .ok parsed =>
    if endsWith (toLowerCase parsed.pathname) ".m3u8" then .ok (some url)
    else scanParams H parsed.searchParams possibleParams

/-- `try { .. } catch (e) { return null; }`. -/
def catchNull (r : Except JsError (Option String)) : Except JsError (Option String) :=
  match r with
  | .ok v => .ok v
  | .error _ => .ok none

/-- `extractM3U8Url(url)` of `background.js`. -/
def extractM3U8Url (H : Host) (url : String) : Except JsError (Option String) :=
  catchNull (extractBody H H.newURL url)

/-- `isValidM3U8Url(url)` of `background.js`. -/
def isValidM3U8Url (H : Host) (url : String) : Except JsError Bool :=
  match extractM3U8Url H url with
  | .error e => .error e
  | .ok v => .ok v.isSome

/-! ## A concrete host

`stdHost` follows the URL Standard and ECMAScript on a fragment that covers
the URLs used below: inputs `scheme:[//]host[:port][/path][?query][#fragment]`
whose scheme is `http`, `https`, `ws`, `wss` or `ftp` and whose host is made of
ASCII letters, digits, `-`, `_` and `.`, is not an IP address and has no
punycode label; and inputs without a scheme, which are relative references.
Credentials, other schemes and other hosts are outside the fragment and are
answered with a `TypeError` (the platform accepts some of them). -/

/-- Value of a hexadecimal digit. -/
def hexVal (c : Char) : Option Nat :=
  if '0' ≤ c ∧ c ≤ '9' then some (c.toNat - 48)
  else if 'a' ≤ c ∧ c ≤ 'f' then some (c.toNat - 87)
  else if 'A' ≤ c ∧ c ≤ 'F' then some (c.toNat - 55)
  else none

/-- Upper-case hexadecimal digit of a value below 16. -/
def hexDigit (n : Nat) : Char :=
  if n < 10 then Char.ofNat (48 + n) else Char.ofNat (55 + n)

/-- UTF-8 bytes of a code point. -/
def utf8Encode (c : Char) : List Nat :=
  let v := c.toNat
  if v < 0x80 then [v]
  else if v < 0x800 then [0xC0 + v / 64, 0x80 + v % 64]
  else if v < 0x10000 then [0xE0 + v / 4096, 0x80 + v / 64 % 64, 0x80 + v % 64]
  else [0xF0 + v / 262144, 0x80 + v / 4096 % 64, 0x80 + v / 64 % 64, 0x80 + v % 64]

/-- Text `%XX` of a byte. -/
def percentByte (b : Nat) : List Char := ['%', hexDigit (b / 16), hexDigit (b % 16)]

/-- State of the UTF-8 decoder of the Encoding Standard. -/
structure Utf8State where
  codePoint : Nat := 0
  bytesSeen : Nat := 0
  bytesNeeded : Nat := 0
  lower : Nat := 0x80
  upper : Nat := 0xBF

/-- One byte through the decoder with no sequence pending. -/
def utf8Lead (b : Nat) : Utf8State × List Char :=
  if b < 0x80 then ({}, [Char.ofNat b])
  else if 0xC2 ≤ b ∧ b ≤ 0xDF then ({ bytesNeeded := 1, codePoint := b % 32 }, [])
  else if 0xE0 ≤ b ∧ b ≤ 0xEF then
    ({ bytesNeeded := 2, codePoint := b % 16,
       lower := if b = 0xE0 then 0xA0 else 0x80,
       upper := if b = 0xED then 0x9F else 0xBF }, [])
  else if 0xF0 ≤ b ∧ b ≤ 0xF4 then
    ({ bytesNeeded := 3, codePoint := b % 8,
       lower := if b = 0xF0 then 0x90 else 0x80,
       upper := if b = 0xF4 then 0x8F else 0xBF }, [])
  else ({}, [Char.ofNat 0xFFFD])

/-- One byte through the decoder. -/
def utf8Step (st : Utf8State) (b : Nat) : Utf8State × List Char :=
  if st.bytesNeeded = 0 then utf8Lead b
  else if b < st.lower ∨ st.upper < b then
    let r := utf8Lead b
    (r.1, Char.ofNat 0xFFFD :: r.2)
  else
    let cp := st.codePoint * 64 + b % 64
    if st.bytesSeen + 1 = st.bytesNeeded then ({}, [Char.ofNat cp])
    else
      ({ codePoint := cp, bytesSeen := st.bytesSeen + 1, bytesNeeded := st.bytesNeeded,
         lower := 0x80, upper := 0xBF }, [])

/-- The decoder run over a byte list; malformed input gives U+FFFD. -/
def utf8DecodeFrom (st : Utf8State) : List Nat → List Char
  | [] => if st.bytesNeeded = 0 then [] else [Char.ofNat 0xFFFD]
  | b :: bs => let r := utf8Step st b; r.2 ++ utf8DecodeFrom r.1 bs

/-- Percent-decoding of a byte list: `%XX` with two hexadecimal digits becomes
one byte, anything else is kept. -/
def percentDecodeBytes : List Char → List Nat
  | [] => []
  | '%' :: a :: b :: rest =>
    match hexVal a, hexVal b with
    | some x, some y => (16 * x + y) :: percentDecodeBytes rest
    | _, _ => utf8Encode '%' ++ percentDecodeBytes (a :: b :: rest)
  | c :: rest => utf8Encode c ++ percentDecodeBytes rest

/-- Pieces of a list between the separators picked by `p`. -/
def splitAt (p : Char → Bool) : List Char → List (List Char)
  | [] => [[]]
  | c :: cs =>
    if p c then [] :: splitAt p cs
    else
      match splitAt p cs with
      | [] => [[c]]
      | seg :: segs => (c :: seg) :: segs

/-- Slash or backslash: both separate path segments of a special URL. -/
def isSlash (c : Char) : Bool := c.toNat = 47 || c.toNat = 92

/-- Leading and trailing C0 controls and spaces are dropped, and ASCII tab and
newline are removed everywhere, before a URL is parsed. -/
def stripInput (s : List Char) : List Char :=
  let t := (s.dropWhile (fun c => c.toNat ≤ 32)).reverse
  ((t.dropWhile (fun c => c.toNat ≤ 32)).reverse).filter
    (fun c => !(c.toNat = 9 || c.toNat = 10 || c.toNat = 13))

/-- The `scheme:` prefix of an input, lowered, and the rest. -/
def splitScheme (s : List Char) : Option (List Char × List Char) :=
  let isSchemeChar := fun (c : Char) => c.isAlphanum || c = '+' || c = '-' || c = '.'
  match s with
  | [] => none
  | c :: _ =>
    if c.isAlpha then
      match s.dropWhile isSchemeChar with
      | ':' :: rest => some ((s.takeWhile isSchemeChar).map Char.toLower, rest)
      | _ => none
    else none

/-- The special schemes of the fragment. -/
def specialSchemes : List (List Char) :=
  ["http".data, "https".data, "ws".data, "wss".data, "ftp".data]

/-- The path percent-encode set. -/
def inPathEncodeSet (c : Char) : Bool :=
  c.toNat ≤ 31 || 126 < c.toNat || [32, 34, 35, 60, 62, 63, 94, 96, 123, 125].contains c.toNat

/-- A path segment with the characters of the path percent-encode set
escaped. -/
def encodeSegment (seg : List Char) : List Char :=
  seg.flatMap (fun c => if inPathEncodeSet c then (utf8Encode c).flatMap percentByte else [c])

/-- Single-dot path segment. -/
def isSingleDot (seg : List Char) : Bool :=
  let t := seg.map Char.toLower
  t = ".".data || t = "%2e".data

/-- Double-dot path segment. -/
def isDoubleDot (seg : List Char) : Bool :=
  let t := seg.map Char.toLower
  t = "..".data || t = ".%2e".data || t = "%2e.".data || t = "%2e%2e".data

/-- The path state of the URL parser: the raw segments still to be read are
appended to the path built so far. -/
def pathState (path : List (List Char)) : List (List Char) → List (List Char)
  | [] => path
  | seg :: rest =>
    if isDoubleDot seg then
      pathState (if rest.isEmpty then path.dropLast ++ [[]] else path.dropLast) rest
    else if isSingleDot seg then
      pathState (if rest.isEmpty then path ++ [[]] else path) rest
    else pathState (path ++ [encodeSegment seg]) rest

/-- Serialised path: every segment preceded by a slash. -/
def serializePath (path : List (List Char)) : List Char :=
  path.flatMap (fun seg => '/' :: seg)

/-- The parser of `application/x-www-form-urlencoded` applied to a query. -/
def parseQuery (q : List Char) : List (String × String) :=
  let decode := fun (t : List Char) =>
    String.mk (utf8DecodeFrom {} (percentDecodeBytes (t.map (fun c => if c = '+' then ' ' else c))))
  ((splitAt (fun c => c = '&') q).filter (fun piece => !piece.isEmpty)).map
    (fun piece =>
      (decode (piece.takeWhile (fun c => c != '=')),
       decode ((piece.dropWhile (fun c => c != '=')).drop 1)))

/-- What the parser keeps of a URL of the fragment. -/
structure UrlRecord where
  scheme : List Char
  host : List Char
  path : List (List Char)
  query : Option (List Char)

/-- Host and port of an authority of the fragment. -/
def parseAuthority (auth : List Char) : Except JsError (List Char) :=
  let hostRaw := auth.takeWhile (fun c => c != ':')
  let port := (auth.dropWhile (fun c => c != ':')).drop 1
  let host := hostRaw.map Char.toLower
  let labels := splitAt (fun c => c = '.') host
  let lastLabel := if labels.getLast? = some [] then labels.dropLast.getLast?.getD [] else
    labels.getLast?.getD []
  let numeric := fun (l : List Char) => !l.isEmpty && (l.all Char.isDigit ||
    ((l.take 2 = "0x".data) && (l.drop 2).all (fun c => (hexVal c).isSome)))
  if host.isEmpty then .error .typeError
  else if !host.all (fun c => c.isAlphanum || c = '-' || c = '_' || c = '.') then .error .typeError
  else if labels.any (fun l => l.take 4 = "xn--".data) then .error .typeError
  else if numeric lastLabel then .error .typeError
  else if !port.all Char.isDigit then .error .typeError
  else if 65535 < port.foldl (fun n c => 10 * n + (c.toNat - 48)) 0 then .error .typeError
  else .ok host

/-- Path, query and fragment states: `rest` starts where the authority (or
the relative reference) ends. -/
def parsePathQuery (scheme host : List Char) (basePath : List (List Char)) (rest : List Char) :
    UrlRecord :=
  let pathRaw := rest.takeWhile (fun c => c != '?' && c != '#')
  let after := rest.dropWhile (fun c => c != '?' && c != '#')
  let segs := splitAt isSlash (match pathRaw with
    | [] => []
    | c :: cs => if isSlash c then cs else c :: cs)
  { scheme := scheme, host := host, path := pathState basePath segs,
    query := match after with
      | '?' :: q => some (q.takeWhile (fun c => c != '#'))
      | _ => none }

/-- Authority state onwards, after the slashes that follow the scheme. -/
def parseFromAuthority (scheme : List Char) (rest : List Char) : Except JsError UrlRecord :=
  let r := rest.dropWhile isSlash
  let stop := fun (c : Char) => isSlash c || c = '?' || c = '#'
  match parseAuthority (r.takeWhile (fun c => !stop c)) with
  | .error e => .error e
  | .ok host => .ok (parsePathQuery scheme host [] (r.dropWhile (fun c => !stop c)))

/-- The URL parser without a base. -/
def parseAbsolute (input : List Char) : Except JsError UrlRecord :=
  match splitScheme (stripInput input) with
  | none => .error .typeError
  | some (scheme, rest) =>
    if specialSchemes.contains scheme then parseFromAuthority scheme rest
    else .error .typeError

/-- The relative state of the URL parser: the input has no scheme of its
own and is resolved against the base. -/
def parseRelativeState (base : UrlRecord) (s : List Char) : Except JsError UrlRecord :=
  match s with
  | [] => .ok base
  | c :: cs =>
    if isSlash c then
      match cs with
      | d :: _ =>
        if isSlash d then parseFromAuthority base.scheme cs
        else .ok (parsePathQuery base.scheme base.host [] s)
      | [] => .ok (parsePathQuery base.scheme base.host [] s)
    else if c = '?' then
      .ok { base with query := some (cs.takeWhile (fun c => c != '#')) }
    else if c = '#' then .ok base
    else .ok (parsePathQuery base.scheme base.host base.path.dropLast s)

/-- The URL parser with a base that was parsed already. -/
def parseRelative (base : UrlRecord) (input : List Char) : Except JsError UrlRecord :=
  let s := stripInput input
  match splitScheme s with
  | some (scheme, rest) =>
    if !specialSchemes.contains scheme then .error .typeError
    else if scheme = base.scheme && rest.take 2 != "//".data then parseRelativeState base rest
    else parseFromAuthority scheme rest
  | none => parseRelativeState base s

/-- The `URL` object of a parsed URL. -/
def UrlRecord.toObject (u : UrlRecord) : URLObject :=
  { pathname := String.mk (serializePath u.path),
    hostname := String.mk u.host,
    searchParams := parseQuery (u.query.getD []) }

/-- The continuation bytes of a multi-byte escape: `k` groups `%XX`, each a
byte of the form `10xxxxxx`. -/
def readContinuation : Nat → List Char → Option (List Nat × List Char)
  | 0, s => some ([], s)
  | k + 1, s =>
    match s with
    | '%' :: a :: b :: rest =>
      match hexVal a, hexVal b with
      | some x, some y =>
        if (16 * x + y) / 64 = 2 then
          (readContinuation k rest).map (fun r => ((16 * x + y) :: r.1, r.2))
        else none
      | _, _ => none
    | _ => none

/-- The code point of a UTF-8 byte sequence, when the sequence is the
encoding of one. -/
def utf8Strict (bytes : List Nat) : Option Char :=
  let v := match bytes with
    | [a, b] => (a % 32) * 64 + b % 64
    | [a, b, c] => (a % 16) * 4096 + (b % 64) * 64 + c % 64
    | [a, b, c, d] => (a % 8) * 262144 + (b % 64) * 4096 + (c % 64) * 64 + d % 64
    | _ => 0
  if utf8Encode (Char.ofNat v) = bytes then some (Char.ofNat v) else none

/-- Length of the UTF-8 sequence announced by a lead byte above `0x7F`; `0`
for a byte that starts no sequence. -/
def utf8SeqLength (v : Nat) : Nat :=
  if v / 32 = 6 then 2 else if v / 16 = 14 then 3 else if v / 8 = 30 then 4 else 0

/-- The `Decode` operation of ECMAScript with an empty reserved set; `none`
is a `URIError`.  The first argument bounds the number of steps; any bound
above the length of the input gives the same result (`decodeAux_fuel`). -/
def decodeAux : Nat → List Char → Option (List Char)
  | 0, _ => none
  | f + 1, s =>
    match s with
    | [] => some []
    | '%' :: a :: b :: rest =>
      match hexVal a, hexVal b with
      | some x, some y =>
        let v := 16 * x + y
        if v < 128 then (decodeAux f rest).map (fun r => Char.ofNat v :: r)
        else
          if utf8SeqLength v = 0 then none
          else
            match readContinuation (utf8SeqLength v - 1) rest with
            | none => none
            | some (bs, rest') =>
              match utf8Strict (v :: bs) with
              | none => none
              | some c => (decodeAux f rest').map (fun r => c :: r)
      | _, _ => none
    | '%' :: _ => none
    | c :: rest => (decodeAux f rest).map (fun r => c :: r)

/-- The concrete host. -/
def stdHost : Host where
  newURL s :=
    match parseAbsolute s.data with
    | .error e => .error e
    | .ok u => .ok u.toObject
  newURLWithBase s base :=
    match parseAbsolute base.data with
    | .error e => .error e
    | .ok b =>
      match parseRelative b s.data with
      | .error e => .error e
      | .ok u => .ok u.toObject
  decodeURIComponent s :=
    match decodeAux (s.data.length + 1) s.data with
    | none => .error .uriError
    | some r => .ok (String.mk r)

/-! ## background.js: the per-tab registry -/

/-- Tab identifiers (`details.tabId` is `-1` outside of tabs). -/
abbrev TabId := Int

/-- One element of `m3u8Storage[tabId]`. -/
structure Record where
  url : String
  timestamp : Nat
  subdomain : String
  originalUrl : String
  deriving DecidableEq, Repr

/-- The calls to `chrome.action` that the script makes. -/
inductive Effect where
  | setBadgeText (text : String) (tabId : TabId)
  | setBadgeBackgroundColor (color : String)
  | setBadgeTextColor (color : String)
  deriving DecidableEq, Repr

/-- The state of the background script: the global `m3u8Storage` (`none` is
an absent key) and the log of `chrome.action` calls made so far, oldest
first. -/
structure World where
  m3u8Storage : TabId → Option (List Record)
  effects : List Effect

/-- The state in which the script starts: `const m3u8Storage = {}`. -/
def World.init : World := { m3u8Storage := fun _ => none, effects := [] }

/-- `m3u8Storage[tabId] = v` (`some`) and `delete m3u8Storage[tabId]`
(`none`). -/
def World.set (w : World) (tabId : TabId) (v : Option (List Record)) : World :=
  { w with m3u8Storage := fun t => if t = tabId then v else w.m3u8Storage t }

/-- How a call ends: it returns, or an exception leaves it. -/
inductive Completion where
  | normal
  | throw (e : JsError)
  deriving DecidableEq, Repr

/-- `extractSubdomain(url)`: `hostname.replace(/\.com$/, "")`. -/
def extractSubdomain (H : Host) (url : String) : Except JsError String :=
  match H.newURL url with
  | .error e => .error e
  | .ok parsed =>
    if endsWith parsed.hostname ".com" then
      .ok (String.mk (parsed.hostname.data.take (parsed.hostname.data.length - 4)))
    else .ok parsed.hostname

/-- `updateBadge(tabId)`. -/
def updateBadge (w : World) (tabId : TabId) : World :=
  let count := match w.m3u8Storage tabId with
    | some l => l.length
    | none => 0
  { w with effects := w.effects ++
      [ .setBadgeText (if count > 0 then toString count else "") tabId,
        .setBadgeBackgroundColor "#FF6B6B",
        .setBadgeTextColor "#FFFFFF" ] }

/-- `arr.slice(-10)`: the last ten elements, all of them when there are
fewer. -/
def sliceLast10 {α : Type} (l : List α) : List α := l.drop (l.length - 10)

/-- `storeM3U8Url(tabId, originalUrl)`, with `now` the reading of
`Date.now()` during the call. -/
def storeM3U8Url (H : Host) (now : Nat) (tabId : TabId) (originalUrl : String) (w : World) :
    World × Completion :=
  match extractM3U8Url H originalUrl with
  | .error e => (w, .throw e)
  | .ok m3u8Url =>
    if !truthy m3u8Url then (w, .normal)
    else
      let m := m3u8Url.getD ""
      let w1 := match w.m3u8Storage tabId with
        | none => w.set tabId (some [])
        | some _ => w
      let list := (w1.m3u8Storage tabId).getD []
      let present := list.any (fun item => item.url == m)
      if !present then
        match extractSubdomain H m with
        | .error e => (w1, .throw e)
        | .ok subdomain =>
          let pushed := list ++
            [{ url := m, timestamp := now, subdomain := subdomain, originalUrl := originalUrl }]
          let w2 := w1.set tabId (some pushed)
          let w3 := if pushed.length > 10 then w2.set tabId (some (sliceLast10 pushed)) else w2
          (updateBadge w3 tabId, .normal)
      else (w1, .normal)

/-! ## background.js: the listeners -/

/-- One entry of `details.responseHeaders`; `value` is absent for a header
with a binary value. -/
structure HttpHeader where
  name : String
  value : Option String
  deriving DecidableEq, Repr

/-- The fields of a `webRequest` event that the listeners read. -/
structure RequestDetails where
  tabId : TabId
  url : String
  responseHeaders : Option (List HttpHeader)
  deriving DecidableEq, Repr

/-- The `chrome.webRequest.onCompleted` listener. -/
def onCompleted (H : Host) (now : Nat) (details : RequestDetails) (w : World) :
    World × Completion :=
  match extractM3U8Url H details.url with
  | .error e => (w, .throw e)
  | .ok m3u8Url =>
    if truthy m3u8Url then storeM3U8Url H now details.tabId details.url w
    else (w, .normal)

/-- The `chrome.webRequest.onHeadersReceived` listener.  Reading `.value` of
a header found without a text value throws. -/
def onHeadersReceived (H : Host) (now : Nat) (details : RequestDetails) (w : World) :
    World × Completion :=
  let contentType : Option HttpHeader := match details.responseHeaders with
    | none => none
    | some headers => headers.find?
        (fun (header : HttpHeader) => toLowerCase header.name == "content-type")
  match contentType with
  | none => (w, .normal)
  | some header =>
    match header.value with
    | none => (w, .throw .typeError)
    | some value =>
      if includes value "application/vnd.apple.mpegurl" ||
          includes value "application/x-mpegURL" then
        storeM3U8Url H now details.tabId details.url w
      else (w, .normal)

/-- The `changeInfo` argument of `chrome.tabs.onUpdated`; both properties are
optional. -/
structure ChangeInfo where
  status : Option String
  url : Option String
  deriving DecidableEq, Repr

/-- The `chrome.tabs.onUpdated` listener. -/
def onUpdated (tabId : TabId) (changeInfo : ChangeInfo) (w : World) : World :=
  if changeInfo.status = some "loading" && truthy changeInfo.url then
    updateBadge (w.set tabId none) tabId
  else w

/-- The `chrome.tabs.onRemoved` listener. -/
def onRemoved (tabId : TabId) (w : World) : World := w.set tabId none

/-- The messages told apart by `msg.type`. -/
inductive Message where
  | getM3U8_from_network (tabId : TabId)
  | clearM3U8 (tabId : TabId)
  | contentScriptM3U8Found (url : String)
  | testUrl (url : String)
  | other (type : String)
  deriving DecidableEq, Repr

/-- The objects passed to `sendResponse`. -/
inductive Response where
  | urls (urls : List Record) (count : Nat) (success : Bool)
  | success (success : Bool)
  | unknown (success : Bool) (error : String)
  deriving DecidableEq, Repr

/-- The `chrome.runtime.onMessage` listener: the new state, how the call
ended and the response sent during the call.  `senderTab` is `sender.tab.id`
when `sender.tab` is there.  The answer to `testUrl` is sent later, from the
`fetch` promise, and is not part of this model. -/
def onMessage (H : Host) (now : Nat) (msg : Message) (senderTab : Option TabId) (w : World) :
    World × Completion × Option Response :=
  match msg with
  | .getM3U8_from_network tabId =>
    let urls := (w.m3u8Storage tabId).getD []
    (w, .normal, some (.urls urls urls.length true))
  | .clearM3U8 clearTabId =>
    (updateBadge (w.set clearTabId none) clearTabId, .normal, some (.success true))
  | .contentScriptM3U8Found url =>
    match senderTab with
    | none => (w, .normal, none)
    | some id =>
      if id ≠ 0 then
        match storeM3U8Url H now id url w with
        | (w1, .normal) => (w1, .normal, some (.success true))
        | (w1, .throw e) => (w1, .throw e, none)
      else (w, .normal, none)
  | .testUrl _ => (w, .normal, none)
  | .other _ => (w, .normal, some (.unknown false "Unknown message type"))

/-- The operations on the registry: a direct call of `storeM3U8Url` and the
events that the listeners handle. -/
inductive Op where
  | store (now : Nat) (tabId : TabId) (originalUrl : String)
  | completed (now : Nat) (details : RequestDetails)
  | headersReceived (now : Nat) (details : RequestDetails)
  | updated (tabId : TabId) (changeInfo : ChangeInfo)
  | removed (tabId : TabId)
  | message (now : Nat) (msg : Message) (senderTab : Option TabId)
  deriving DecidableEq, Repr

/-- The state after one operation.  An exception that leaves a listener ends
that call only; the state it leaves behind stays. -/
def step (H : Host) (w : World) : Op → World
  | .store now tabId originalUrl => (storeM3U8Url H now tabId originalUrl w).1
  | .completed now details => (onCompleted H now details w).1
  | .headersReceived now details => (onHeadersReceived H now details w).1
  | .updated tabId changeInfo => onUpdated tabId changeInfo w
  | .removed tabId => onRemoved tabId w
  | .message now msg senderTab => (onMessage H now msg senderTab w).1

/-- The state after a sequence of operations. -/
def run (H : Host) (w : World) (ops : List Op) : World := ops.foldl (step H) w

/-- The record list of a tab as the `getM3U8_from_network` query reads it:
`m3u8Storage[tabId] || []`. -/
def stored (w : World) (tabId : TabId) : List Record := (w.m3u8Storage tabId).getD []

/-- The calls `storeM3U8Url(tabId, u1)`, .., `storeM3U8Url(tabId, un)` in
that order; each call comes with its reading of `Date.now()`. -/
def storeAll (H : Host) (tabId : TabId) (w : World) (calls : List (Nat × String)) : World :=
  calls.foldl (fun w c => (storeM3U8Url H c.1 tabId c.2 w).1) w

/-! ## content.js: the text scan and the reports -/

/-- `extractM3U8Url(url)` of `content.js`: as in `background.js`, but the URL
is parsed against `window.location.origin`. -/
def Content.extractM3U8Url (H : Host) (origin : String) (url : String) :
    Except JsError (Option String) :=
  catchNull (extractBody H (fun s => H.newURLWithBase s origin) url)

/-- The pieces of the regular expressions of `extractM3U8UrlsFromContent`:
one character of a class, an optional one (`?`), a greedy run (`*`), and the
opening and closing bracket of the capture group. -/
inductive Atom where
  | one (p : Char → Bool)
  | opt (p : Char → Bool)
  | star (p : Char → Bool)
  | groupStart
  | groupEnd

/-- A greedy run of characters of class `p` followed by the continuation
`k`: the longest run is tried first, then shorter ones. -/
def starGreedy {α : Type} (p : Char → Bool) (k : List Char → Option α) : List Char → Option α
  | [] => k []
  | c :: cs =>
    if p c then
      match starGreedy p k cs with
      | some r => some r
      | none => k (c :: cs)
    else k (c :: cs)

/-- Backtracking match of a pattern at the start of the input.  The result
is the input left after the match, and the inputs left where the capture group
opens and where it closes. -/
def matchAtoms : List Atom → List Char → Option (List Char) → Option (List Char) →
    Option (List Char × Option (List Char) × Option (List Char))
  | [], s, gs, ge => some (s, gs, ge)
  | .one p :: atoms, s, gs, ge =>
    match s with
    | [] => none
    | c :: cs => if p c then matchAtoms atoms cs gs ge else none
  | .opt p :: atoms, s, gs, ge =>
    match s with
    | [] => matchAtoms atoms [] gs ge
    | c :: cs =>
      if p c then
        match matchAtoms atoms cs gs ge with
        | some r => some r
        | none => matchAtoms atoms (c :: cs) gs ge
      else matchAtoms atoms (c :: cs) gs ge
  | .star p :: atoms, s, gs, ge => starGreedy p (fun t => matchAtoms atoms t gs ge) s
  | .groupStart :: atoms, s, _, ge => matchAtoms atoms s (some s) ge
  | .groupEnd :: atoms, s, gs, _ => matchAtoms atoms s gs (some s)

/-- One successful `pattern.exec`: the text of `match[0]`, the text of
`match[1]` when the pattern has a group, and the input from `lastIndex` on. -/
structure ExecResult where
  whole : List Char
  group : Option (List Char)
  rest : List Char

/-- `pattern.exec(content)` for a global pattern, on the input from
`lastIndex` on: the leftmost match. -/
def execFrom (atoms : List Atom) : List Char → Option ExecResult
  | [] =>
    match matchAtoms atoms [] none none with
    | none => none
    | some (rest, gs, ge) =>
      some { whole := [], rest := rest,
             group := match gs, ge with
               | some a, some b => some (a.take (a.length - b.length))
               | _, _ => none }
  | c :: cs =>
    match matchAtoms atoms (c :: cs) none none with
    | none => execFrom atoms cs
    | some (rest, gs, ge) =>
      some { whole := (c :: cs).take ((c :: cs).length - rest.length), rest := rest,
             group := match gs, ge with
               | some a, some b => some (a.take (a.length - b.length))
               | _, _ => none }

/-- The loop `while ((match = pattern.exec(content)) !== null)`: the values
`match[1] || match[0]` of the successive matches.  The first argument bounds
the number of rounds; every match of the four patterns is non-empty, so
`lastIndex` advances and any bound above the length of the input gives the
same list (`m3u8Patterns_fuel`). -/
def execAll (atoms : List Atom) : Nat → List Char → List String
  | 0, _ => []
  | fuel + 1, s =>
    match execFrom atoms s with
    | none => []
    | some r =>
      (match r.group with
        | some g => if g.isEmpty then String.mk r.whole else String.mk g
        | none => String.mk r.whole) :: execAll atoms fuel r.rest

/-- A literal character under the `i` flag. -/
def lit (c : Char) : Atom := .one (fun x => x.toLower = c)

/-- The literal characters of a text under the `i` flag. -/
def lits (s : String) : List Atom := s.data.map lit

/-- The class `\s`: white space and line terminators. -/
def isJsSpace (c : Char) : Bool :=
  let n := c.toNat
  (9 ≤ n && n ≤ 13) || n = 32 || n = 0xA0 || n = 0x1680 || (0x2000 ≤ n && n ≤ 0x200A) ||
    n = 0x2028 || n = 0x2029 || n = 0x202F || n = 0x205F || n = 0x3000 || n = 0xFEFF

/-- The class `[^\s"']`. -/
def notSpaceQuote (c : Char) : Bool := !(isJsSpace c || c.toNat = 34 || c.toNat = 39)

/-- The class `.`: everything but a line terminator. -/
def dot (c : Char) : Bool :=
  !(c.toNat = 10 || c.toNat = 13 || c.toNat = 0x2028 || c.toNat = 0x2029)

/-- The prefix `https?:\/\/` shared by the patterns. -/
def httpPrefix : List Atom := lits "http" ++ [.opt (fun x => x.toLower = 's')] ++ lits "://"

/-- The array `m3u8Patterns`. -/
def m3u8Patterns : List (List Atom) :=
  [ httpPrefix ++ [.one notSpaceQuote, .star notSpaceQuote] ++ lits ".m3u8" ++
      [.star notSpaceQuote],
    httpPrefix ++ [.star notSpaceQuote, .one (fun c => c = '?' || c = '&'), .star dot] ++
      lits "m3u8" ++ [.star notSpaceQuote],
    [.one (fun c => c.toNat = 34), .groupStart] ++ httpPrefix ++
      [.star (fun c => c.toNat != 34)] ++ lits ".m3u8" ++
      [.star (fun c => c.toNat != 34), .groupEnd, .one (fun c => c.toNat = 34)],
    [.one (fun c => c.toNat = 39), .groupStart] ++ httpPrefix ++
      [.star (fun c => c.toNat != 39)] ++ lits ".m3u8" ++
      [.star (fun c => c.toNat != 39), .groupEnd, .one (fun c => c.toNat = 39)] ]

/-- `isValidUrl(string)`. -/
def isValidUrl (H : Host) (string : String) : Bool :=
  match H.newURL string with
  | .ok _ => true
  | .error _ => false

/-- `[...new Set(urls)]`: the first occurrence of every string, in order. -/
def uniqueInOrder : List String → List String
  | [] => []
  | x :: xs => x :: (uniqueInOrder xs).filter (fun y => y != x)

/-- `extractM3U8UrlsFromContent(content)`. -/
def extractM3U8UrlsFromContent (H : Host) (content : String) : List String :=
  uniqueInOrder (m3u8Patterns.flatMap (fun pattern =>
    (execAll pattern (content.data.length + 1) content.data).filter
      (fun url => truthyStr url && isValidUrl H url)))

/-- The values that reach the parameter `originalUrl` of `reportM3U8`. -/
inductive JsValue where
  | undefined
  | null
  | str (s : String)
  | num (n : Nat)
  deriving DecidableEq, Repr

/-- Truthiness of these values. -/
def JsValue.truthy : JsValue → Bool
  | .undefined => false
  | .null => false
  | .str s => truthyStr s
  | .num n => n != 0

/-- The message object built by `reportM3U8`. -/
structure ContentMessage where
  type : String
  url : JsValue
  source : String
  timestamp : Nat
  deriving DecidableEq, Repr

/-- `reportM3U8(m3u8Url, originalUrl = null)`.  The state is the list of the
messages passed to `chrome.runtime.sendMessage` so far, and `clock k` is the
reading of `Date.now()` when `k` messages have been sent. -/
def reportM3U8 (clock : Nat → Nat) (m3u8Url : String) (originalUrl : JsValue)
    (sent : List ContentMessage) : List ContentMessage :=
  let originalUrl := if originalUrl = .undefined then JsValue.null else originalUrl
  sent ++ [{ type := "contentScriptM3U8Found",
             url := if originalUrl.truthy then originalUrl else .str m3u8Url,
             source := "content_script",
             timestamp := clock sent.length }]

/-- `checkForM3U8(originalUrl, content)` for a string `content`. -/
def checkForM3U8 (H : Host) (origin : String) (clock : Nat → Nat) (originalUrl content : String)
    (sent : List ContentMessage) : List ContentMessage :=
  match Content.extractM3U8Url H origin originalUrl with
  | .error _ => sent
  | .ok extractedUrl =>
    if truthy extractedUrl then
      reportM3U8 clock (extractedUrl.getD "") (.str originalUrl) sent
    else if truthyStr content then
      (extractM3U8UrlsFromContent H content).foldl
        (fun sent url => reportM3U8 clock url (.str originalUrl) sent) sent
    else sent

/-- The last step of `scanPageForM3U8`: the scan of
`document.documentElement.innerHTML`.  `forEach` calls `reportM3U8` with the
element, its index and the array, so the index arrives as `originalUrl`. -/
def scanPageSource (H : Host) (clock : Nat → Nat) (pageContent : String)
    (sent : List ContentMessage) : List ContentMessage :=
  (extractM3U8UrlsFromContent H pageContent).enum.foldl
    (fun sent iu => reportM3U8 clock iu.2 (.num iu.1) sent) sent

/-! ## popup.js: the choice of the player

`chrome.tabs.create` and `showToast` are recorded as effects; the toast
element of the popup page is taken to exist.  Stored preferences are
strings. -/

/-- The placeholder `{url}` of a player template (code points 123 and 125
around `url`). -/
def urlPlaceholder : String := "\x7burl\x7d"

/-- The state of `M3U8Player` that `playVideo` reads: the own properties of
`this.players` and `this.defaultPlayer`. -/
structure Popup where
  players : List (String × String)
  defaultPlayer : String
  deriving DecidableEq, Repr

/-- The fields `players` and `defaultPlayer` as the constructor sets them. -/
def Popup.constructor : Popup :=
  { players :=
      [ ("ct0u0", "https://m3u8.ct0u0.dpdns.org/m3u8-player.html?url=" ++ urlPlaceholder),
        ("potplayer", "potplayer://" ++ urlPlaceholder),
        ("vlc", "vlc://" ++ urlPlaceholder),
        ("custom", "") ],
    defaultPlayer := "clementzq" }

/-- `this.players.custom = value`. -/
def setCustom (players : List (String × String)) (value : String) : List (String × String) :=
  if players.any (fun kv => kv.1 == "custom") then
    players.map (fun kv => if kv.1 == "custom" then (kv.1, value) else kv)
  else players ++ [("custom", value)]

/-- The assignments of `loadSettings`, given what `chrome.storage.sync.get`
resolves to (the stored `defaultPlayer` and `customPlayerUrl`, each possibly
absent) or that it rejects.  The assignments come before the updates of the
page, so they stand whatever happens to those. -/
def loadSettings (p : Popup) (result : Except JsError (Option String × Option String)) : Popup :=
  match result with
  | .error _ => p
  | .ok (defaultPlayer, customPlayerUrl) =>
    { defaultPlayer := if truthy defaultPlayer then defaultPlayer.getD "" else "clementzq",
      players := setCustom p.players (if truthy customPlayerUrl then customPlayerUrl.getD "" else "") }

/-- The `change` listener of the player selection:
`this.defaultPlayer = e.target.value`. -/
def selectDefaultPlayer (p : Popup) (value : String) : Popup := { p with defaultPlayer := value }

/-- The `input` listener of the custom URL field:
`this.players.custom = e.target.value`. -/
def inputCustomPlayerUrl (p : Popup) (value : String) : Popup :=
  { p with players := setCustom p.players value }

/-- What a property read `this.players[key]` can give: nothing, a template
string, or a member inherited from `Object.prototype` (a function or an
object, which has no `replace`). -/
inductive Property where
  | undefined
  | str (s : String)
  | inherited
  deriving DecidableEq, Repr

/-- The property names of `Object.prototype`. -/
def objectPrototypeKeys : List String :=
  [ "constructor", "__proto__", "hasOwnProperty", "isPrototypeOf", "propertyIsEnumerable",
    "toLocaleString", "toString", "valueOf", "__defineGetter__", "__defineSetter__",
    "__lookupGetter__", "__lookupSetter__" ]

/-- `this.players[key]`. -/
def getPlayer (players : List (String × String)) (key : String) : Property :=
  match players.find? (fun kv => kv.1 == key) with
  | some kv => .str kv.2
  | none => if objectPrototypeKeys.contains key then .inherited else .undefined

/-- Truthiness of a property value. -/
def Property.truthy : Property → Bool
  | .undefined => false
  | .str s => truthyStr s
  | .inherited => true

/-- The first occurrence of `pat` in a text: what stands before it and what
stands after it. -/
def splitFirst (pat : List Char) : List Char → Option (List Char × List Char)
  | [] => if pat.isEmpty then some ([], []) else none
  | c :: cs =>
    if pat.isPrefixOf (c :: cs) then some ([], (c :: cs).drop pat.length)
    else (splitFirst pat cs).map (fun r => (c :: r.1, r.2))

/-- The operation `GetSubstitution` of ECMAScript for a match without capture
groups: in the replacement text `$$` stands for `$`, `$&` (code point 38) for
the match, `$` with a backtick (96) for the text before the match and `$` with
an apostrophe (39) for the text after it; everything else is literal. -/
def getSubstitution (matched before after : List Char) : List Char → List Char
  | [] => []
  | c :: rest =>
    match rest with
    | [] => [c]
    | d :: rest2 =>
      if c = '$' && d = '$' then '$' :: getSubstitution matched before after rest2
      else if c = '$' && d.toNat = 38 then matched ++ getSubstitution matched before after rest2
      else if c = '$' && d.toNat = 96 then before ++ getSubstitution matched before after rest2
      else if c = '$' && d.toNat = 39 then after ++ getSubstitution matched before after rest2
      else c :: getSubstitution matched before after (d :: rest2)

/-- `s.replace(searchValue, replaceValue)` for two strings: the first
occurrence of `searchValue` is replaced. -/
def replace (s searchValue replaceValue : String) : String :=
  match splitFirst searchValue.data s.data with
  | none => s
  | some (before, after) =>
    String.mk (before ++ getSubstitution searchValue.data before after replaceValue.data ++ after)

/-- The calls that `playVideo` makes. -/
inductive PopupEffect where
  | showToast (message : String)
  | tabsCreate (url : String)
  deriving DecidableEq, Repr

/-- `playVideo(url)`: the calls made, in order, and how the call ends.
Calling `replace` on `undefined`, or on an inherited member, is a
`TypeError`. -/
def playVideo (p : Popup) (url : String) : List PopupEffect × Completion :=
  let playerUrl := getPlayer p.players p.defaultPlayer
  if p.defaultPlayer = "custom" && !playerUrl.truthy then
    ([.showToast "Please configure custom player URL in settings"], .normal)
  else
    match playerUrl with
    | .str template =>
      ([.tabsCreate (replace template urlPlaceholder url), .showToast "Opening in player..."],
        .normal)
    | .undefined => ([], .throw .typeError)
    | .inherited => ([], .throw .typeError)

/-! ## Predicates of the statements -/

/-- A direct manifest URL: a non-empty string that `new URL` parses and whose
path ends in `.m3u8`, letter case ignored. -/
def IsDirectManifest (H : Host) (u : String) : Prop :=
  truthyStr u = true ∧
    ∃ parsed, H.newURL u = .ok parsed ∧ endsWith (toLowerCase parsed.pathname) ".m3u8" = true

/-- The invariant of the registry: every tab holds at most ten records, with
pairwise distinct urls. -/
def RegistryInv (w : World) : Prop :=
  ∀ t : TabId, (stored w t).length ≤ 10 ∧ ((stored w t).map Record.url).Nodup

/-! ## Concrete inputs used by the examples -/

/-- Eleven calls with pairwise distinct direct manifest URLs. -/
def elevenCalls : List (Nat × String) :=
  [ (1001, "https://cdn.example.com/v1.m3u8"), (1002, "https://cdn.example.com/v2.m3u8"),
    (1003, "https://cdn.example.com/v3.m3u8"), (1004, "https://cdn.example.com/v4.M3U8"),
    (1005, "https://cdn.example.com/v5.m3u8"), (1006, "https://cdn.example.com/v6.m3u8"),
    (1007, "https://cdn.example.com/v7.m3u8"), (1008, "https://cdn.example.com/v8.m3u8"),
    (1009, "https://cdn.example.com/v9.m3u8"), (1010, "https://cdn.example.com/va.m3u8"),
    (1011, "https://cdn.example.com/vb.m3u8?t=1") ]

/-- A response-headers event for a request whose URL has no `.m3u8` suffix
and no recognised parameter, served with the HLS content type. -/
def headerOnlyDetails : RequestDetails :=
  { tabId := 1, url := "https://cdn.example.com/play.php?id=9",
    responseHeaders := some [⟨"content-type", some "application/vnd.apple.mpegurl"⟩] }

/-- A state in which tabs 7 and 8 hold one record each. -/
def twoTabs : World :=
  (storeM3U8Url stdHost 1002 8 "https://cdn.example.com/v2.m3u8"
    (storeM3U8Url stdHost 1001 7 "https://cdn.example.com/v1.m3u8" World.init).1).1

/-- A script text that holds the URL `https://a.example.com/x.m3u8` once in
double quotes (code point 34) and once in single quotes (code point 39). -/
def quotedTwice : String :=
  String.mk ("var a = ".data ++ [Char.ofNat 34] ++ "https://a.example.com/x.m3u8".data ++
    [Char.ofNat 34] ++ "; var b = ".data ++ [Char.ofNat 39] ++
    "https://a.example.com/x.m3u8".data ++ [Char.ofNat 39] ++ ";".data)

/-! # Theorems -/

/-! ### The registry: basic facts -/

theorem World.set_same (w : World) (t : TabId) (v : Option (List Record)) :
    (w.set t v).m3u8Storage t = v := by
  simp [World.set]

theorem World.set_other (w : World) (t t' : TabId) (v : Option (List Record)) (h : t' ≠ t) :
    (w.set t v).m3u8Storage t' = w.m3u8Storage t' := by
  simp [World.set, h]

theorem extract_direct {H : Host} {u : String} (h : IsDirectManifest H u) :
    extractM3U8Url H u = .ok (some u) := by
  obtain ⟨_, p, hp, he⟩ := h
  simp [extractM3U8Url, extractBody, hp, he, catchNull]

theorem extractM3U8Url_ok (H : Host) (u : String) : ∃ v, extractM3U8Url H u = .ok v := by
  unfold extractM3U8Url catchNull
  split
  · exact ⟨_, rfl⟩
  · exact ⟨_, rfl⟩

/-- What a call of `storeM3U8Url` does to the storage, case by case. -/
theorem store_cases (H : Host) (now : Nat) (tab : TabId) (u : String) (w : World) :
    let r := storeM3U8Url H now tab u w
    (∀ t, t ≠ tab → r.1.m3u8Storage t = w.m3u8Storage t) ∧
    ((r.1.m3u8Storage tab = w.m3u8Storage tab ∧ r.1.effects = w.effects) ∨
     (stored r.1 tab = stored w tab ∧ r.1.m3u8Storage tab = some (stored w tab) ∧
        r.1.effects = w.effects) ∨
     (∃ rec, extractM3U8Url H u = .ok (some rec.url) ∧ truthyStr rec.url = true ∧
        rec.timestamp = now ∧ rec.originalUrl = u ∧
        extractSubdomain H rec.url = .ok rec.subdomain ∧
        rec.url ∉ (stored w tab).map Record.url ∧
        r.2 = .normal ∧
        r.1.m3u8Storage tab = some (sliceLast10 (stored w tab ++ [rec])))) := by
  intro r
  obtain ⟨v, hv⟩ := extractM3U8Url_ok H u
  have hslice : ∀ l : List Record, (if l.length > 10 then sliceLast10 l else l) = sliceLast10 l := by
    intro l
    split
    · rfl
    · have : l.length - 10 = 0 := by omega
      simp [sliceLast10, this]
  cases v with
  | none =>
    have hr : r = (w, .normal) := by simp [r, storeM3U8Url, hv, truthy]
    simp [hr]
  | some m =>
    by_cases hm : truthyStr m = true
    · by_cases hex : (stored w tab).any (fun item => item.url == m) = true
      · cases hs : w.m3u8Storage tab with
        | none => simp [stored, hs] at hex
        | some l =>
          have hr : r = (w, .normal) := by
            simp only [stored, hs, Option.getD] at hex
            simp [r, storeM3U8Url, hv, truthy, hm, hs, hex]
          exact ⟨fun t _ => by rw [hr], Or.inl ⟨by rw [hr]; exact hs, by rw [hr]⟩⟩
      · cases hsub : extractSubdomain H m with
        | error e =>
          cases hs : w.m3u8Storage tab with
          | none =>
            have hr : r = (w.set tab (some []), .throw e) := by
              simp [r, storeM3U8Url, hv, truthy, hm, hs, hsub, World.set]
            refine ⟨?_, Or.inr (Or.inl ?_)⟩
            · intro t ht; simp [hr, World.set, ht]
            · simp [hr, stored, hs, World.set]
          | some l =>
            have hr : r = (w, .throw e) := by
              simp only [stored, hs, Option.getD] at hex
              simp [r, storeM3U8Url, hv, truthy, hm, hs, hsub, hex]
            exact ⟨fun t _ => by rw [hr], Or.inl ⟨by rw [hr]; exact hs, by rw [hr]⟩⟩
        | ok sub =>
          refine ⟨?_, Or.inr (Or.inr ⟨⟨m, now, sub, u⟩, hv, hm, rfl, rfl, hsub, ?_, ?_, ?_⟩)⟩
          · intro t ht
            cases hs : w.m3u8Storage tab <;>
              simp only [stored, hs, Option.getD] at hex <;>
              (simp [r, storeM3U8Url, hv, truthy, hm, hs, hsub, hex, World.set, updateBadge, ht]; try (split <;> simp [ht]))
          · simpa [List.any_eq_true] using hex
          · cases hs : w.m3u8Storage tab <;>
              simp only [stored, hs, Option.getD] at hex <;>
              simp [r, storeM3U8Url, hv, truthy, hm, hs, hsub, hex, World.set, updateBadge]
          · cases hs : w.m3u8Storage tab <;>
              simp only [stored, hs, Option.getD] at hex <;>
              simp [r, storeM3U8Url, hv, truthy, hm, hs, hsub, hex, World.set, updateBadge, stored]
            · simp [sliceLast10]
            · rename_i l
              have := hslice (l ++ [⟨m, now, sub, u⟩])
              simp only [List.length_append, List.length_singleton] at this
              rw [← this]
              split <;> simp
    · have hr : r = (w, .normal) := by simp [r, storeM3U8Url, hv, truthy, hm]
      simp [hr]

/-! ### The registry: deterministic cases of `storeM3U8Url` -/

theorem store_of_falsy (H : Host) (now : Nat) (tab : TabId) (u : String) (w : World)
    (v : Option String) (hv : extractM3U8Url H u = .ok v) (hf : truthy v = false) :
    storeM3U8Url H now tab u w = (w, .normal) := by
  simp [storeM3U8Url, hv, hf]

theorem store_of_present (H : Host) (now : Nat) (tab : TabId) (u m : String) (w : World)
    (l : List Record) (hv : extractM3U8Url H u = .ok (some m)) (hm : truthyStr m = true)
    (hs : w.m3u8Storage tab = some l) (hex : l.any (fun item => item.url == m) = true) :
    storeM3U8Url H now tab u w = (w, .normal) := by
  simp [storeM3U8Url, hv, truthy, hm, hs, hex]

theorem store_of_throw (H : Host) (now : Nat) (tab : TabId) (u m : String) (w : World)
    (l : List Record) (e : JsError) (hv : extractM3U8Url H u = .ok (some m))
    (hm : truthyStr m = true) (hs : w.m3u8Storage tab = some l)
    (hex : l.any (fun item => item.url == m) = false)
    (hsub : extractSubdomain H m = .error e) :
    storeM3U8Url H now tab u w = (w, .throw e) := by
  simp [storeM3U8Url, hv, truthy, hm, hs, hex, hsub]

theorem store_of_fresh (H : Host) (now : Nat) (tab : TabId) (u m sub : String) (w : World)
    (hv : extractM3U8Url H u = .ok (some m)) (hm : truthyStr m = true)
    (hex : m ∉ (stored w tab).map Record.url)
    (hsub : extractSubdomain H m = .ok sub) :
    let r := storeM3U8Url H now tab u w
    r.2 = .normal ∧
    r.1.m3u8Storage tab = some (sliceLast10 (stored w tab ++ [⟨m, now, sub, u⟩])) := by
  intro r
  have hslice : ∀ l : List Record, (if l.length > 10 then sliceLast10 l else l) = sliceLast10 l := by
    intro l
    split
    · rfl
    · have : l.length - 10 = 0 := by omega
      simp [sliceLast10, this]
  have hex2 : (stored w tab).any (fun item => item.url == m) = false := by
    rw [Bool.eq_false_iff]
    intro h
    apply hex
    simpa [List.any_eq_true] using h
  constructor
  · cases hs : w.m3u8Storage tab <;>
      simp only [stored, hs, Option.getD] at hex2 <;>
      simp [r, storeM3U8Url, hv, truthy, hm, hs, hsub, hex2, World.set, updateBadge]
  · cases hs : w.m3u8Storage tab <;>
      simp only [stored, hs, Option.getD] at hex2 <;>
      simp [r, storeM3U8Url, hv, truthy, hm, hs, hsub, hex2, World.set, updateBadge, stored]
    · simp [sliceLast10]
    · rename_i l
      have := hslice (l ++ [⟨m, now, sub, u⟩])
      simp only [List.length_append, List.length_singleton] at this
      rw [← this]
      split <;> simp

/-! ### Lists: the last ten elements -/

theorem sliceLast10_length {α : Type} (l : List α) : (sliceLast10 l).length ≤ 10 := by
  simp [sliceLast10]; omega

theorem sliceLast10_of_le {α : Type} (l : List α) (h : l.length ≤ 10) : sliceLast10 l = l := by
  have : l.length - 10 = 0 := by omega
  simp [sliceLast10, this]

theorem sliceLast10_map {α β : Type} (f : α → β) (l : List α) :
    (sliceLast10 l).map f = sliceLast10 (l.map f) := by
  simp [sliceLast10, List.map_drop]

theorem sliceLast10_append {α : Type} (a b : List α) :
    sliceLast10 (sliceLast10 a ++ b) = sliceLast10 (a ++ b) := by
  by_cases h : a.length ≤ 10
  · rw [sliceLast10_of_le a h]
  · have hk : a.length - 10 ≤ a.length := by omega
    unfold sliceLast10
    rw [← List.drop_append_of_le_length hk, List.drop_drop]
    congr 1
    simp only [List.length_drop, List.length_append]
    omega

theorem sliceLast10_sublist {α : Type} (l : List α) : (sliceLast10 l).Sublist l :=
  List.drop_sublist _ _

theorem extractSubdomain_ok {H : Host} {u : String} {p : URLObject} (h : H.newURL u = .ok p) :
    ∃ sub, extractSubdomain H u = .ok sub := by
  unfold extractSubdomain
  rw [h]
  dsimp only
  split <;> exact ⟨_, rfl⟩

/-- A fresh direct manifest URL is appended and the list is cut to its last
ten elements. -/
theorem stored_store_direct (H : Host) (now : Nat) (tab : TabId) (u : String) (w : World)
    (hd : IsDirectManifest H u) (hfresh : u ∉ (stored w tab).map Record.url) :
    (stored (storeM3U8Url H now tab u w).1 tab).map Record.url =
      sliceLast10 ((stored w tab).map Record.url ++ [u]) := by
  obtain ⟨hne, p, hp, _⟩ := id hd
  obtain ⟨sub, hsub⟩ := extractSubdomain_ok hp
  have h := (store_of_fresh H now tab u u sub w (extract_direct hd) hne hfresh hsub).2
  simp only [stored, h, Option.getD]
  rw [sliceLast10_map]
  simp [stored]

theorem storeAll_urls (H : Host) (tab : TabId) :
    ∀ (calls : List (Nat × String)) (w : World),
      (∀ c ∈ calls, IsDirectManifest H c.2) → (calls.map Prod.snd).Nodup →
      (∀ c ∈ calls, c.2 ∉ (stored w tab).map Record.url) → (stored w tab).length ≤ 10 →
      (stored (storeAll H tab w calls) tab).map Record.url =
        sliceLast10 ((stored w tab).map Record.url ++ calls.map Prod.snd) := by
  intro calls
  induction calls with
  | nil =>
    intro w _ _ _ hlen
    simp [storeAll, sliceLast10_of_le _ (show ((stored w tab).map Record.url).length ≤ 10 by simpa using hlen)]
  | cons c rest ih =>
    intro w hd hnd hfresh hlen
    have hstep := stored_store_direct H c.1 tab c.2 w (hd c (List.mem_cons_self _ _))
      (hfresh c (List.mem_cons_self _ _))
    simp only [List.map_cons, List.nodup_cons] at hnd
    have hlen' : (stored (storeM3U8Url H c.1 tab c.2 w).1 tab).length ≤ 10 := by
      have := congrArg List.length hstep
      simp only [List.length_map] at this
      rw [this]
      exact sliceLast10_length _
    have hfresh' : ∀ d ∈ rest, d.2 ∉ (stored (storeM3U8Url H c.1 tab c.2 w).1 tab).map Record.url := by
      intro d hdm hmem
      rw [hstep] at hmem
      have hmem' := (sliceLast10_sublist _).subset hmem
      rcases List.mem_append.mp hmem' with h1 | h1
      · exact hfresh d (List.mem_cons_of_mem _ hdm) h1
      · simp only [List.mem_singleton] at h1
        exact hnd.1 (h1 ▸ List.mem_map_of_mem Prod.snd hdm)
    have := ih (storeM3U8Url H c.1 tab c.2 w).1 (fun d hdm => hd d (List.mem_cons_of_mem _ hdm))
      hnd.2 hfresh' hlen'
    simp only [storeAll, List.foldl_cons] at this ⊢
    rw [this, hstep, sliceLast10_append]
    simp

/-! ### C1 -/

/-- C1: starting from an empty record list for the tab, storing pairwise
distinct direct manifest URLs `u1..un` in that order leaves the urls of the
tab's records equal to the last `min n 10` of them, in insertion order; for
`n = 11` that is `u2..u11`, and `u1` is gone. -/
theorem storeAll_keeps_last_ten (H : Host) (tab : TabId) (w : World)
    (calls : List (Nat × String))
    (hempty : stored w tab = [])
    (hdirect : ∀ c ∈ calls, IsDirectManifest H c.2)
    (hdistinct : (calls.map Prod.snd).Nodup) :
    (stored (storeAll H tab w calls) tab).map Record.url =
        (calls.map Prod.snd).drop (calls.length - min calls.length 10) ∧
      (calls.length = 11 →
        (stored (storeAll H tab w calls) tab).map Record.url = (calls.map Prod.snd).tail ∧
        ∀ u1, (calls.map Prod.snd).head? = some u1 →
          u1 ∉ (stored (storeAll H tab w calls) tab).map Record.url) := by
  have hmain := storeAll_urls H tab calls w hdirect hdistinct
    (by intro c _; simp [hempty]) (by simp [hempty])
  simp only [hempty, List.map_nil, List.nil_append] at hmain
  have hidx : calls.length - min calls.length 10 = (calls.map Prod.snd).length - 10 := by
    simp only [List.length_map]; omega
  refine ⟨by rw [hmain, hidx]; rfl, ?_⟩
  intro h11
  have htail : sliceLast10 (calls.map Prod.snd) = (calls.map Prod.snd).tail := by
    simp [sliceLast10, h11]
  refine ⟨by rw [hmain, htail], ?_⟩
  intro u1 hu1 hmem
  rw [hmain, htail] at hmem
  cases hc : calls.map Prod.snd with
  | nil => simp [hc] at hu1
  | cons a t =>
    rw [hc] at hdistinct hu1 hmem
    simp only [List.head?_cons, Option.some.injEq] at hu1
    subst hu1
    exact (List.nodup_cons.mp hdistinct).1 hmem

theorem elevenCalls_direct : ∀ c ∈ elevenCalls, IsDirectManifest stdHost c.2 := by
  intro c hc
  simp only [elevenCalls, List.mem_cons, List.mem_singleton, List.not_mem_nil, or_false] at hc
  rcases hc with h | h | h | h | h | h | h | h | h | h | h <;> subst h <;>
    exact ⟨rfl, _, rfl, rfl⟩

/-- Eleven stores into an empty tab on the concrete host: the ten urls kept
are the second to the eleventh. -/
theorem storeAll_keeps_last_ten_witness :
    (stored (storeAll stdHost 7 World.init elevenCalls) 7).map Record.url =
      [ "https://cdn.example.com/v2.m3u8", "https://cdn.example.com/v3.m3u8",
        "https://cdn.example.com/v4.M3U8", "https://cdn.example.com/v5.m3u8",
        "https://cdn.example.com/v6.m3u8", "https://cdn.example.com/v7.m3u8",
        "https://cdn.example.com/v8.m3u8", "https://cdn.example.com/v9.m3u8",
        "https://cdn.example.com/va.m3u8", "https://cdn.example.com/vb.m3u8?t=1" ] :=
  (storeAll_keeps_last_ten stdHost 7 World.init elevenCalls rfl elevenCalls_direct
    (by decide)).1

/-! ### The registry invariant -/


theorem stored_eq_of_storage_eq {w w' : World} {t : TabId}
    (h : w'.m3u8Storage t = w.m3u8Storage t) : stored w' t = stored w t := by
  simp [stored, h]

/-- One call of `storeM3U8Url` keeps a record list short and duplicate-free,
whatever the other tabs hold. -/
theorem store_keeps_tab (H : Host) (now : Nat) (tab : TabId) (u : String) (w : World)
    (t : TabId) (hlen : (stored w t).length ≤ 10) (hnd : ((stored w t).map Record.url).Nodup) :
    (stored (storeM3U8Url H now tab u w).1 t).length ≤ 10 ∧
      ((stored (storeM3U8Url H now tab u w).1 t).map Record.url).Nodup := by
  obtain ⟨hother, hcases⟩ := store_cases H now tab u w
  by_cases ht : t = tab
  · subst ht
    rcases hcases with ⟨h, _⟩ | ⟨h, _⟩ | ⟨rec, _, _, _, _, _, hfresh, _, h⟩
    · rw [stored_eq_of_storage_eq h]; exact ⟨hlen, hnd⟩
    · rw [h]; exact ⟨hlen, hnd⟩
    · have hst : stored (storeM3U8Url H now t u w).1 t = sliceLast10 (stored w t ++ [rec]) := by
        simp [stored, h]
      rw [hst]
      refine ⟨sliceLast10_length _, ?_⟩
      rw [sliceLast10_map]
      refine List.Nodup.sublist (sliceLast10_sublist _) ?_
      rw [List.map_append, List.map_singleton]
      refine List.Nodup.append hnd (List.nodup_singleton _) ?_
      intro x hx hx'
      rw [List.mem_singleton] at hx'
      exact hfresh (hx' ▸ hx)
  · rw [stored_eq_of_storage_eq (hother t ht)]; exact ⟨hlen, hnd⟩

theorem store_inv (H : Host) (now : Nat) (tab : TabId) (u : String) (w : World)
    (h : RegistryInv w) : RegistryInv (storeM3U8Url H now tab u w).1 :=
  fun t => store_keeps_tab H now tab u w t (h t).1 (h t).2

theorem set_none_inv (w : World) (tab : TabId) (h : RegistryInv w) :
    RegistryInv (w.set tab none) := by
  intro t
  by_cases ht : t = tab
  · subst ht; simp [stored, World.set]
  · have : stored (w.set tab none) t = stored w t := by simp [stored, World.set, ht]
    rw [this]; exact h t

theorem updateBadge_stored (w : World) (tab t : TabId) :
    stored (updateBadge w tab) t = stored w t := rfl

theorem updateBadge_inv (w : World) (tab : TabId) (h : RegistryInv w) :
    RegistryInv (updateBadge w tab) := h

theorem step_inv (H : Host) (w : World) (op : Op) (h : RegistryInv w) :
    RegistryInv (step H w op) := by
  cases op with
  | store now tabId originalUrl => exact store_inv H now tabId originalUrl w h
  | completed now details =>
    simp only [step, onCompleted]
    split
    · exact h
    · split
      · exact store_inv H now _ _ w h
      · exact h
  | headersReceived now details =>
    simp only [step, onHeadersReceived]
    split
    · exact h
    · split
      · exact h
      · split
        · exact store_inv H now _ _ w h
        · exact h
  | updated tabId changeInfo =>
    simp only [step, onUpdated]
    split
    · exact updateBadge_inv _ _ (set_none_inv w tabId h)
    · exact h
  | removed tabId => exact set_none_inv w tabId h
  | message now msg senderTab =>
    cases msg with
    | getM3U8_from_network tabId => exact h
    | clearM3U8 tabId => exact updateBadge_inv _ _ (set_none_inv w tabId h)
    | contentScriptM3U8Found url =>
      cases senderTab with
      | none => exact h
      | some id =>
        by_cases hid : id = 0
        · simp only [step, onMessage, hid]; exact h
        · have hs := store_inv H now id url w h
          simp only [step, onMessage, hid]
          rcases hr : storeM3U8Url H now id url w with ⟨w1, c⟩
          rw [hr] at hs
          cases c <;> simpa [hid] using hs
    | testUrl url => exact h
    | other type => exact h

theorem init_inv : RegistryInv World.init := by
  intro t; simp [stored, World.init]

theorem run_inv (H : Host) (ops : List Op) : ∀ w, RegistryInv w → RegistryInv (run H w ops) := by
  induction ops with
  | nil => intro w h; exact h
  | cons op rest ih => intro w h; exact ih _ (step_inv H w op h)

theorem store_of_throw_absent (H : Host) (now : Nat) (tab : TabId) (u m : String) (w : World)
    (e : JsError) (hv : extractM3U8Url H u = .ok (some m))
    (hm : truthyStr m = true) (hs : w.m3u8Storage tab = none)
    (hsub : extractSubdomain H m = .error e) :
    storeM3U8Url H now tab u w = (w.set tab (some []), .throw e) := by
  simp [storeM3U8Url, hv, truthy, hm, hs, hsub, World.set]

theorem mem_sliceLast10_append_singleton {α : Type} (l : List α) (x : α) :
    x ∈ sliceLast10 (l ++ [x]) := by
  unfold sliceLast10
  have hk : (l ++ [x]).length - 10 ≤ l.length := by simp
  rw [List.drop_append_of_le_length hk]
  simp

/-- A second call of `storeM3U8Url` with the same arguments (and any clock
reading) changes nothing. -/
theorem store_store (H : Host) (now1 now2 : Nat) (tab : TabId) (u : String) (w : World) :
    (storeM3U8Url H now2 tab u (storeM3U8Url H now1 tab u w).1).1 =
      (storeM3U8Url H now1 tab u w).1 := by
  obtain ⟨v, hv⟩ := extractM3U8Url_ok H u
  by_cases hf : truthy v = false
  · rw [store_of_falsy H now1 tab u w v hv hf, store_of_falsy H now2 tab u w v hv hf]
  · cases v with
    | none => simp [truthy] at hf
    | some m =>
      have hm : truthyStr m = true := by simpa [truthy] using hf
      by_cases hex : m ∈ (stored w tab).map Record.url
      · cases hs : w.m3u8Storage tab with
        | none => simp [stored, hs] at hex
        | some l =>
          have hany : l.any (fun item => item.url == m) = true := by
            simpa [stored, hs, List.any_eq_true] using hex
          rw [store_of_present H now1 tab u m w l hv hm hs hany,
            store_of_present H now2 tab u m w l hv hm hs hany]
      · cases hsub : extractSubdomain H m with
        | error e =>
          cases hs : w.m3u8Storage tab with
          | none =>
            rw [store_of_throw_absent H now1 tab u m w e hv hm hs hsub]
            rw [store_of_throw H now2 tab u m (w.set tab (some [])) [] e hv hm
              (World.set_same _ _ _) (by simp) hsub]
          | some l =>
            have hany : l.any (fun item => item.url == m) = false := by
              rw [Bool.eq_false_iff]
              intro h
              apply hex
              simpa [stored, hs, List.any_eq_true] using h
            rw [store_of_throw H now1 tab u m w l e hv hm hs hany hsub,
              store_of_throw H now2 tab u m w l e hv hm hs hany hsub]
        | ok sub =>
          have h1 := (store_of_fresh H now1 tab u m sub w hv hm hex hsub).2
          have hany : (sliceLast10 (stored w tab ++ [(⟨m, now1, sub, u⟩ : Record)])).any
              (fun item => item.url == m) = true := by
            rw [List.any_eq_true]
            exact ⟨_, mem_sliceLast10_append_singleton _ _, by simp⟩
          rw [store_of_present H now2 tab u m _ _ hv hm h1 hany]

/-! ### C2, C3, C4 -/

/-- C2: in every state reached from the empty `m3u8Storage` by a sequence of
registry operations (direct calls of `storeM3U8Url` and all listener events,
among them the `clearM3U8` message, the `tabs.onUpdated` clear and the
`tabs.onRemoved` cleanup), every tab's record list has at most ten
elements. -/
theorem reachable_length_le_ten (H : Host) (ops : List Op) (tab : TabId) :
    (stored (run H World.init ops) tab).length ≤ 10 ∧
      ∀ l, (run H World.init ops).m3u8Storage tab = some l → l.length ≤ 10 := by
  have h := (run_inv H ops _ init_inv tab).1
  refine ⟨h, ?_⟩
  intro l hl
  simpa [stored, hl] using h

/-- A run of eleven stores and a tab removal: the list of tab 7 has at most ten
records. -/
theorem reachable_length_le_ten_witness :
    (run stdHost World.init
        ((elevenCalls.map (fun c => Op.store c.1 7 c.2)) ++ [Op.removed 3])).m3u8Storage 7 =
        some (stored (storeAll stdHost 7 World.init elevenCalls) 7) ∧
      (stored (storeAll stdHost 7 World.init elevenCalls) 7).length ≤ 10 :=
  ⟨rfl, (reachable_length_le_ten stdHost
    ((elevenCalls.map (fun c => Op.store c.1 7 c.2)) ++ [Op.removed 3]) 7).2 _ rfl⟩

/-- One call of `storeM3U8Url` keeps the urls of a record list pairwise
distinct, whatever the length of the list. -/
theorem store_keeps_nodup (H : Host) (now : Nat) (tab : TabId) (u : String) (w : World)
    (t : TabId) (hnd : ((stored w t).map Record.url).Nodup) :
    ((stored (storeM3U8Url H now tab u w).1 t).map Record.url).Nodup := by
  obtain ⟨hother, hcases⟩ := store_cases H now tab u w
  by_cases ht : t = tab
  · subst ht
    rcases hcases with ⟨h, _⟩ | ⟨h, _⟩ | ⟨rec, _, _, _, _, _, hfresh, _, h⟩
    · rw [stored_eq_of_storage_eq h]; exact hnd
    · rw [h]; exact hnd
    · have hst : stored (storeM3U8Url H now t u w).1 t = sliceLast10 (stored w t ++ [rec]) := by
        simp [stored, h]
      rw [hst, sliceLast10_map]
      refine List.Nodup.sublist (sliceLast10_sublist _) ?_
      rw [List.map_append, List.map_singleton]
      refine List.Nodup.append hnd (List.nodup_singleton _) ?_
      intro x hx hx'
      rw [List.mem_singleton] at hx'
      exact hfresh (hx' ▸ hx)
  · rw [stored_eq_of_storage_eq (hother t ht)]; exact hnd

/-- C3: in every state reached from the empty `m3u8Storage` by a sequence of
registry operations no two records of one tab have the same `url` string; and
a call of `storeM3U8Url` keeps the urls of any duplicate-free list pairwise
distinct, also when the list is full and the append is followed by the cut to
the last ten. -/
theorem reachable_urls_nodup (H : Host) (ops : List Op) (tab : TabId) :
    ((stored (run H World.init ops) tab).map Record.url).Nodup ∧
      ∀ (now : Nat) (u : String) (w : World), ((stored w tab).map Record.url).Nodup →
        ((stored (storeM3U8Url H now tab u w).1 tab).map Record.url).Nodup :=
  ⟨(run_inv H ops _ init_inv tab).2, fun now u w h => store_keeps_nodup H now tab u w tab h⟩

/-- A full list of ten records takes an eleventh url: the append is followed
by the cut, and the urls stay pairwise distinct. -/
theorem reachable_urls_nodup_witness :
    (stored (storeAll stdHost 7 World.init (elevenCalls.take 10)) 7).length = 10 ∧
      ((stored (storeM3U8Url stdHost 1011 7 "https://cdn.example.com/vb.m3u8?t=1"
        (storeAll stdHost 7 World.init (elevenCalls.take 10))).1 7).map Record.url).Nodup :=
  ⟨rfl, (reachable_urls_nodup stdHost [] 7).2 1011 "https://cdn.example.com/vb.m3u8?t=1"
    (storeAll stdHost 7 World.init (elevenCalls.take 10)) (by decide)⟩

/-- C4: a second call of `storeM3U8Url` with the same tab and source URL,
made directly after the first, leaves the registry exactly as the first call
left it (same records, timestamps and order, whatever the clock reads) and
makes no `chrome.action` call; and from an empty set for the tab, two calls
with a source URL that yields a manifest URL which parses leave a set of
size 1. -/
theorem store_twice_same (H : Host) (now1 now2 : Nat) (tab : TabId) (u : String) (w : World) :
    (storeM3U8Url H now2 tab u (storeM3U8Url H now1 tab u w).1).1.m3u8Storage =
        (storeM3U8Url H now1 tab u w).1.m3u8Storage ∧
      (storeM3U8Url H now2 tab u (storeM3U8Url H now1 tab u w).1).1.effects =
        (storeM3U8Url H now1 tab u w).1.effects ∧
      ∀ m parsed, stored w tab = [] → extractM3U8Url H u = .ok (some m) →
        truthyStr m = true → H.newURL m = .ok parsed →
        (stored (storeM3U8Url H now2 tab u (storeM3U8Url H now1 tab u w).1).1 tab).length = 1 := by
  have h := store_store H now1 now2 tab u w
  refine ⟨by rw [h], by rw [h], ?_⟩
  intro m parsed hempty hv hm hp
  rw [h]
  obtain ⟨sub, hsub⟩ := extractSubdomain_ok hp
  have h1 := (store_of_fresh H now1 tab u m sub w hv hm (by simp [hempty]) hsub).2
  rw [hempty] at h1
  simp only [stored, h1, Option.getD]
  rfl

/-- Two calls with one manifest URL on an empty registry leave one record. -/
theorem store_twice_same_witness :
    (stored (storeM3U8Url stdHost 2002 7 "https://cdn.example.com/v1.m3u8"
      (storeM3U8Url stdHost 2001 7 "https://cdn.example.com/v1.m3u8" World.init).1).1 7).length
      = 1 :=
  (store_twice_same stdHost 2001 2002 7 "https://cdn.example.com/v1.m3u8" World.init).2.2
    "https://cdn.example.com/v1.m3u8" _ rfl rfl rfl rfl

/-! ### C5, C6, C7: the URL matcher -/

theorem endsWith_of_append (s suffix : String) (pre : List Char)
    (h : s.data = pre ++ suffix.data) : endsWith s suffix = true := by
  unfold endsWith
  rw [h, List.reverse_append, List.isPrefixOf_iff_prefix]
  exact List.prefix_append _ _

/-- C5, amended: when the input parses as an absolute URL and its path ends
in `.m3u8` in any letter casing (the path is `pre ++ suf` where lowering the
letters of `suf` gives `.m3u8`), `extractM3U8Url` returns the input string
itself, whatever query parameters the URL carries. -/
theorem extract_direct_unchanged (H : Host) (url : String) (parsed : URLObject)
    (pre suf : List Char)
    (hparse : H.newURL url = .ok parsed)
    (hpath : parsed.pathname.data = pre ++ suf)
    (hsuf : suf.map Char.toLower = ".m3u8".data) :
    extractM3U8Url H url = .ok (some url) := by
  have hends : endsWith (toLowerCase parsed.pathname) ".m3u8" = true := by
    apply endsWith_of_append _ _ (pre.map Char.toLower)
    simp [toLowerCase, hpath, hsuf]
  simp [extractM3U8Url, extractBody, hparse, hends, catchNull]

/-- A URL whose path ends in `.M3u8` and that carries a `url` parameter is
returned as it is. -/
theorem extract_direct_unchanged_witness :
    extractM3U8Url stdHost
        "https://cdn.example.com/live/index.M3u8?url=https%3A%2F%2Fb.example%2Fy.m3u8&x=1" =
      .ok (some "https://cdn.example.com/live/index.M3u8?url=https%3A%2F%2Fb.example%2Fy.m3u8&x=1") :=
  extract_direct_unchanged stdHost
    "https://cdn.example.com/live/index.M3u8?url=https%3A%2F%2Fb.example%2Fy.m3u8&x=1"
    _ "/live/index".data ".M3u8".data rfl rfl rfl

/-- C5, as stated, fails: `https://cdn.m3u8` has no query and no fragment and
ends in `.m3u8`, but these characters belong to the host.  The path is `/`, no
recognised parameter is there, and `extractM3U8Url` returns `null`. -/
theorem extract_direct_unchanged_counterexample :
    ¬ ∀ (url : String) (parsed : URLObject),
        stdHost.newURL url = .ok parsed →
        '?' ∉ url.data → '#' ∉ url.data →
        endsWith (toLowerCase url) ".m3u8" = true →
        extractM3U8Url stdHost url = .ok (some url) := by
  intro h
  have := h "https://cdn.m3u8" ⟨"/", "cdn.m3u8", []⟩ rfl (by decide) (by decide) rfl
  have e : extractM3U8Url stdHost "https://cdn.m3u8" = .ok none := rfl
  rw [e] at this
  exact Option.noConfusion (Except.ok.inj this)

theorem scanParams_skip (H : Host) (sp : List (String × String)) (before rest : List String)
    (hbefore : ∀ q ∈ before, ∀ v, searchParamsGet sp q = some v → truthyStr v = true →
      ∃ d, H.decodeURIComponent v = .ok d ∧ includes (toLowerCase d) ".m3u8" = false) :
    scanParams H sp (before ++ rest) = scanParams H sp rest := by
  induction before with
  | nil => rfl
  | cons q qs ih =>
    have ih' := ih (fun q' hq' => hbefore q' (List.mem_cons_of_mem _ hq'))
    simp only [List.cons_append, scanParams]
    cases hg : searchParamsGet sp q with
    | none => simpa using ih'
    | some v =>
      by_cases hv : truthyStr v = true
      · obtain ⟨d, hd, hi⟩ := hbefore q (List.mem_cons_self _ _) v hg hv
        simpa [hv, hd, hi] using ih'
      · simpa [hv] using ih'

/-- What the parameter loop returns: the result of `decodeURIComponent` on
the value of the first recognised parameter whose decoding contains `.m3u8`,
when the decoding of no earlier value raises. -/
theorem extract_of_decoded_param (H : Host) (url : String) (parsed : URLObject)
    (before after : List String) (param value decoded : String)
    (hparse : H.newURL url = .ok parsed)
    (hpath : endsWith (toLowerCase parsed.pathname) ".m3u8" = false)
    (hlist : possibleParams = before ++ param :: after)
    (hget : searchParamsGet parsed.searchParams param = some value)
    (hvalue : truthyStr value = true)
    (hdecode : H.decodeURIComponent value = .ok decoded)
    (hm3u8 : includes (toLowerCase decoded) ".m3u8" = true)
    (hbefore : ∀ q ∈ before, ∀ v, searchParamsGet parsed.searchParams q = some v →
      truthyStr v = true →
      ∃ d, H.decodeURIComponent v = .ok d ∧ includes (toLowerCase d) ".m3u8" = false) :
    extractM3U8Url H url = .ok (some decoded) := by
  have hscan : scanParams H parsed.searchParams possibleParams = .ok (some decoded) := by
    rw [hlist, scanParams_skip H _ before _ hbefore]
    simp [scanParams, hget, hvalue, hdecode, hm3u8]
  simp [extractM3U8Url, extractBody, hparse, hpath, hscan, catchNull]

/-- A text without a percent sign passes the decoding loop unchanged. -/
theorem decodeAux_plain :
    ∀ (s : List Char) (f : Nat), s.length < f → '%' ∉ s → decodeAux f s = some s := by
  intro s
  induction s with
  | nil =>
    intro f hf _
    cases f with
    | zero => simp at hf
    | succ f => simp [decodeAux]
  | cons c rest ih =>
    intro f hf h
    cases f with
    | zero => omega
    | succ f =>
      simp only [List.mem_cons, not_or] at h
      simp only [List.length_cons] at hf
      have hc : c ≠ '%' := fun e => h.1 e.symm
      have hrest := ih f (by omega) h.2
      simp only [decodeAux]
      split
      · rename_i heq; cases heq
      · rename_i heq; injection heq with h1 _; exact absurd h1 hc
      · rename_i heq; injection heq with h1 _; exact absurd h1 hc
      · rename_i heq
        injection heq with h1 h2
        subst h1 h2
        simp [hrest]

/-- On the concrete host `decodeURIComponent` leaves a text without a percent
sign unchanged. -/
theorem stdHost_decode_plain (s : String) (h : '%' ∉ s.data) :
    stdHost.decodeURIComponent s = .ok s := by
  have h1 := decodeAux_plain s.data (s.data.length + 1) (Nat.lt_succ_self _) h
  simp only [stdHost]
  rw [h1]

/-- The value that `searchParams.get` returns is decoded a second time: a
parameter written `a%2520b` reaches the loop as `a%20b` and is returned as
`a b`, and one written `100%25` reaches it as `100%` and makes the second
decoding raise. -/
theorem extract_decodes_twice :
    extractM3U8Url stdHost
        "https://cdn.example.com/play?video=https%3A%2F%2Fedge.example.com%2Fa%2520b.m3u8"
        = .ok (some "https://edge.example.com/a b.m3u8") ∧
      extractM3U8Url stdHost
        "https://cdn.example.com/play?video=https%3A%2F%2Fedge.example.com%2F100%25.m3u8"
        = .ok none :=
  ⟨rfl, rfl⟩

/-- C6, amended: for a URL that parses and whose own path does not end in
`.m3u8`, let `param` be a recognised parameter whose percent-decoded value (the
value that `searchParams.get` gives) is non-empty, contains `.m3u8` (letter
case ignored) and holds no further escape, so that `decodeURIComponent` leaves
it unchanged; and let every recognised parameter earlier in the fixed list
that has a non-empty value have a value of that kind without `.m3u8`.  Then
`extractM3U8Url` returns the percent-decoded value of `param`. -/
theorem extract_param_value (H : Host) (url : String) (parsed : URLObject)
    (before after : List String) (param value : String)
    (hparse : H.newURL url = .ok parsed)
    (hpath : endsWith (toLowerCase parsed.pathname) ".m3u8" = false)
    (hlist : possibleParams = before ++ param :: after)
    (hget : searchParamsGet parsed.searchParams param = some value)
    (hvalue : truthyStr value = true)
    (hplain : H.decodeURIComponent value = .ok value)
    (hm3u8 : includes (toLowerCase value) ".m3u8" = true)
    (hbefore : ∀ q ∈ before, ∀ v, searchParamsGet parsed.searchParams q = some v →
      truthyStr v = true →
      H.decodeURIComponent v = .ok v ∧ includes (toLowerCase v) ".m3u8" = false) :
    extractM3U8Url H url = .ok (some value) :=
  extract_of_decoded_param H url parsed before after param value value hparse hpath hlist hget
    hvalue hplain hm3u8 (fun q hq v hg hv => ⟨v, hbefore q hq v hg hv⟩)

/-- The scenario of the specification, and a URL with three recognised
parameters of which `video` is the earliest with a manifest. -/
theorem extract_param_value_witness :
    extractM3U8Url stdHost
        "https://cdn.example.com/play?video=https%3A%2F%2Fedge.example.com%2Fstream.m3u8%3Ftoken%3Dabc" =
      .ok (some "https://edge.example.com/stream.m3u8?token=abc") ∧
    extractM3U8Url stdHost
        "https://cdn.example.com/play?src=poster.png&video=https%3A%2F%2Fedge.example.com%2Fstream.m3u8%3Ftoken%3Dabc&file=https%3A%2F%2Fo.example%2Fz.m3u8" =
      .ok (some "https://edge.example.com/stream.m3u8?token=abc") :=
  ⟨extract_param_value stdHost
    "https://cdn.example.com/play?video=https%3A%2F%2Fedge.example.com%2Fstream.m3u8%3Ftoken%3Dabc"
    ⟨"/play", "cdn.example.com", [("video", "https://edge.example.com/stream.m3u8?token=abc")]⟩
    ["url", "src", "source", "stream"] ["link", "file"] "video"
    "https://edge.example.com/stream.m3u8?token=abc"
    rfl rfl rfl rfl rfl (stdHost_decode_plain _ (by decide)) rfl
    (by
      intro q hq v hg _
      simp only [List.mem_cons, List.mem_singleton, List.not_mem_nil, or_false] at hq
      rcases hq with rfl | rfl | rfl | rfl <;>
        exact Option.noConfusion (show (none : Option String) = some v from hg)),
   extract_param_value stdHost
    "https://cdn.example.com/play?src=poster.png&video=https%3A%2F%2Fedge.example.com%2Fstream.m3u8%3Ftoken%3Dabc&file=https%3A%2F%2Fo.example%2Fz.m3u8"
    ⟨"/play", "cdn.example.com",
      [("src", "poster.png"), ("video", "https://edge.example.com/stream.m3u8?token=abc"),
        ("file", "https://o.example/z.m3u8")]⟩
    ["url", "src", "source", "stream"] ["link", "file"] "video"
    "https://edge.example.com/stream.m3u8?token=abc"
    rfl rfl rfl rfl rfl (stdHost_decode_plain _ (by decide)) rfl
    (by
      intro q hq v hg _
      simp only [List.mem_cons, List.mem_singleton, List.not_mem_nil, or_false] at hq
      rcases hq with rfl | rfl | rfl | rfl
      · exact Option.noConfusion (show (none : Option String) = some v from hg)
      · rw [← Option.some.inj hg]; exact ⟨rfl, rfl⟩
      · exact Option.noConfusion (show (none : Option String) = some v from hg)
      · exact Option.noConfusion (show (none : Option String) = some v from hg))⟩

/-- C6, as stated, fails: a URL whose own path ends in `.m3u8` and that
carries a recognised parameter whose percent-decoded value is a manifest URL
is returned itself, not the value of the parameter. -/
theorem extract_param_value_counterexample :
    ¬ ∀ (url value : String) (parsed : URLObject),
        stdHost.newURL url = .ok parsed →
        searchParamsGet parsed.searchParams "url" = some value →
        includes (toLowerCase value) ".m3u8" = true →
        extractM3U8Url stdHost url = .ok (some value) := by
  intro h
  have := h "https://a.example/x.m3u8?url=https%3A%2F%2Fb.example%2Fy.m3u8"
    "https://b.example/y.m3u8" _ rfl rfl rfl
  have e : extractM3U8Url stdHost "https://a.example/x.m3u8?url=https%3A%2F%2Fb.example%2Fy.m3u8" =
      .ok (some "https://a.example/x.m3u8?url=https%3A%2F%2Fb.example%2Fy.m3u8") := rfl
  rw [e] at this
  exact absurd (Option.some.inj (Except.ok.inj this)) (by decide)

/-- C7: `extractM3U8Url` never raises.  For every input it returns a string
or `null`; it returns `null` when `new URL` rejects the input; when the
parameter loop raises the result is `null`; and in particular, when
`decodeURIComponent` raises on the value of the first recognised parameter
that the loop decodes, the result is `null`. -/
theorem extract_never_raises (H : Host) (url : String) :
    (∃ v, extractM3U8Url H url = .ok v) ∧
      (∀ e, H.newURL url = .error e → extractM3U8Url H url = .ok none) ∧
      (∀ parsed e, H.newURL url = .ok parsed →
        endsWith (toLowerCase parsed.pathname) ".m3u8" = false →
        scanParams H parsed.searchParams possibleParams = .error e →
        extractM3U8Url H url = .ok none) ∧
      (∀ parsed e before after param value, H.newURL url = .ok parsed →
        endsWith (toLowerCase parsed.pathname) ".m3u8" = false →
        possibleParams = before ++ param :: after →
        (∀ q ∈ before, ∀ v, searchParamsGet parsed.searchParams q = some v →
          truthyStr v = true →
          ∃ d, H.decodeURIComponent v = .ok d ∧ includes (toLowerCase d) ".m3u8" = false) →
        searchParamsGet parsed.searchParams param = some value →
        truthyStr value = true →
        H.decodeURIComponent value = .error e →
        extractM3U8Url H url = .ok none) := by
  refine ⟨extractM3U8Url_ok H url, ?_, ?_, ?_⟩
  · intro e he
    simp [extractM3U8Url, extractBody, he, catchNull]
  · intro parsed e hp hpath hscan
    simp [extractM3U8Url, extractBody, hp, hpath, hscan, catchNull]
  · intro parsed e before after param value hp hpath hlist hbefore hget hvalue hdecode
    have hscan : scanParams H parsed.searchParams possibleParams = .error e := by
      rw [hlist, scanParams_skip H _ before _ hbefore]
      simp [scanParams, hget, hvalue, hdecode]
    simp [extractM3U8Url, extractBody, hp, hpath, hscan, catchNull]

/-- A text that is no URL, and two URLs whose parameter value makes
`decodeURIComponent` raise. -/
theorem extract_never_raises_witness :
    extractM3U8Url stdHost "not a url" = .ok none ∧
      stdHost.decodeURIComponent "%" = .error .uriError ∧
      extractM3U8Url stdHost "https://a.example/p?url=%25" = .ok none ∧
      extractM3U8Url stdHost "https://a.example/p?src=%25&file=https://b.example/y.m3u8"
        = .ok none :=
  ⟨(extract_never_raises stdHost "not a url").2.1 .typeError rfl, rfl,
    (extract_never_raises stdHost "https://a.example/p?url=%25").2.2.1
      ⟨"/p", "a.example", [("url", "%")]⟩ .uriError rfl rfl rfl,
    (extract_never_raises stdHost
        "https://a.example/p?src=%25&file=https://b.example/y.m3u8").2.2.2
      ⟨"/p", "a.example", [("src", "%"), ("file", "https://b.example/y.m3u8")]⟩ .uriError
      ["url"] ["source", "stream", "video", "link", "file"] "src" "%" rfl rfl rfl
      (by
        intro q hq v hg _
        simp only [List.mem_singleton] at hq
        subst hq
        exact Option.noConfusion (show (none : Option String) = some v from hg))
      rfl rfl rfl⟩

/-! ### C8, C9, C10: the listeners and the page observer -/

/-- C8, evaluated at the input of the claim: the response-headers listener
sees `content-type: application/vnd.apple.mpegurl` on
`https://cdn.example.com/play.php?id=9`, calls `storeM3U8Url`, and that call
returns at its first guard because `extractM3U8Url` gives `null`: nothing is
stored for the tab and the badge is not touched. -/
theorem headers_listener_stores_nothing :
    extractM3U8Url stdHost headerOnlyDetails.url = .ok none ∧
      (onHeadersReceived stdHost 5000 headerOnlyDetails World.init).2 = .normal ∧
      (onHeadersReceived stdHost 5000 headerOnlyDetails World.init).1.m3u8Storage 1 = none ∧
      stored (onHeadersReceived stdHost 5000 headerOnlyDetails World.init).1 1 = [] ∧
      (onHeadersReceived stdHost 5000 headerOnlyDetails World.init).1.effects = [] :=
  ⟨rfl, rfl, rfl, rfl, rfl⟩

/-- C9, evaluated at two inputs.  A response text with one manifest URL,
fetched from a request URL that is no manifest URL: `checkForM3U8` sends one
message, and its `url` field is the request URL, not the URL found.  A page
markup with two manifest URLs: the scan of the markup sends two messages, the
first with the first URL and the second with the number `1` (the index that
`forEach` passes on) in the `url` field. -/
theorem text_scan_reports (clock : Nat → Nat) :
    Content.extractM3U8Url stdHost "https://site.example" "https://site.example/api/player"
        = .ok none ∧
      extractM3U8UrlsFromContent stdHost "playlist = https://a.example.com/x.m3u8 ;"
        = ["https://a.example.com/x.m3u8"] ∧
      (checkForM3U8 stdHost "https://site.example" clock "https://site.example/api/player"
          "playlist = https://a.example.com/x.m3u8 ;" []).map ContentMessage.url
        = [.str "https://site.example/api/player"] ∧
      extractM3U8UrlsFromContent stdHost
          "<video src=https://a.example.com/x.m3u8 > <source src=https://b.example.com/y.m3u8 >"
        = ["https://a.example.com/x.m3u8", "https://b.example.com/y.m3u8"] ∧
      (scanPageSource stdHost clock
          "<video src=https://a.example.com/x.m3u8 > <source src=https://b.example.com/y.m3u8 >"
          []).map ContentMessage.url
        = [.str "https://a.example.com/x.m3u8", .num 1] :=
  ⟨rfl, rfl, rfl, rfl, rfl⟩

/-- C10, as stated, fails: a `loading` update without `changeInfo.url` (a
reload of the same address) leaves the records of the tab in place. -/
theorem onUpdated_loading_counterexample :
    ¬ ∀ (w : World) (t : TabId) (changeInfo : ChangeInfo),
        changeInfo.status = some "loading" → stored (onUpdated t changeInfo w) t = [] := by
  intro h
  have := h twoTabs 7 ⟨some "loading", none⟩ rfl
  exact absurd (congrArg List.length this) (by decide)

/-- C10, amended: when the `tabs.onUpdated` handler processes an update of
tab `t` whose `changeInfo.status` is `loading` and whose `changeInfo.url` is a
non-empty string, the set of `t` is gone (a `getM3U8_from_network` query for
`t` answers `urls = []`, `count = 0`), the badge of `t` is set to the empty
string, and the sets of all other tabs are unchanged. -/
theorem onUpdated_navigation_clears (H : Host) (now : Nat) (senderTab : Option TabId)
    (w : World) (t : TabId) (changeInfo : ChangeInfo)
    (hstatus : changeInfo.status = some "loading")
    (hurl : truthy changeInfo.url = true) :
    (onUpdated t changeInfo w).m3u8Storage t = none ∧
      (onMessage H now (.getM3U8_from_network t) senderTab (onUpdated t changeInfo w)).2.2 =
        some (.urls [] 0 true) ∧
      (onUpdated t changeInfo w).effects = w.effects ++
        [.setBadgeText "" t, .setBadgeBackgroundColor "#FF6B6B", .setBadgeTextColor "#FFFFFF"] ∧
      ∀ t', t' ≠ t → (onUpdated t changeInfo w).m3u8Storage t' = w.m3u8Storage t' := by
  have hw : onUpdated t changeInfo w = updateBadge (w.set t none) t := by
    simp [onUpdated, hstatus, hurl]
  rw [hw]
  refine ⟨by simp [updateBadge, World.set], by simp [onMessage, updateBadge, World.set],
    by simp [updateBadge, World.set], ?_⟩
  intro t' ht
  simp [updateBadge, World.set, ht]

/-- A navigation of tab 7 clears its record and leaves tab 8 alone. -/
theorem onUpdated_navigation_clears_witness :
    (stored twoTabs 7).length = 1 ∧
      (onUpdated 7 ⟨some "loading", some "https://www.example.org/next"⟩ twoTabs).m3u8Storage 7
        = none ∧
      (onMessage stdHost 0 (.getM3U8_from_network 7) none
          (onUpdated 7 ⟨some "loading", some "https://www.example.org/next"⟩ twoTabs)).2.2 =
        some (.urls [] 0 true) ∧
      (onUpdated 7 ⟨some "loading", some "https://www.example.org/next"⟩ twoTabs).m3u8Storage 8
        = twoTabs.m3u8Storage 8 :=
  have h := onUpdated_navigation_clears stdHost 0 none twoTabs 7
    ⟨some "loading", some "https://www.example.org/next"⟩ rfl rfl
  ⟨rfl, h.1, h.2.1, h.2.2.2 8 (by decide)⟩

/-! ### The bounded loops have rounds to spare -/

theorem starGreedy_some {α : Type} (p : Char → Bool) (k : List Char → Option α) :
    ∀ (s : List Char) (r : α), starGreedy p k s = some r →
      ∃ t, t.length ≤ s.length ∧ k t = some r := by
  intro s
  induction s with
  | nil => intro r h; exact ⟨[], le_refl _, h⟩
  | cons c cs ih =>
    intro r h
    simp only [starGreedy] at h
    split at h
    · split at h
      · rename_i r2 hr2
        obtain ⟨t, ht, hk⟩ := ih r2 hr2
        cases h
        exact ⟨t, by simp; omega, hk⟩
      · exact ⟨c :: cs, le_refl _, h⟩
    · exact ⟨c :: cs, le_refl _, h⟩

theorem matchAtoms_length :
    ∀ (atoms : List Atom) (s : List Char) (gs ge : Option (List Char))
      (r : List Char × Option (List Char) × Option (List Char)),
      matchAtoms atoms s gs ge = some r → r.1.length ≤ s.length := by
  intro atoms
  induction atoms with
  | nil => intro s gs ge r h; simp only [matchAtoms] at h; cases h; exact le_refl _
  | cons a atoms ih =>
    intro s gs ge r h
    cases a with
    | one p =>
      cases s with
      | nil => simp [matchAtoms] at h
      | cons c cs =>
        simp only [matchAtoms] at h
        split at h
        · have := ih cs gs ge r h; simp; omega
        · cases h
    | opt p =>
      cases s with
      | nil => simp only [matchAtoms] at h; exact ih [] gs ge r h
      | cons c cs =>
        simp only [matchAtoms] at h
        split at h
        · split at h
          · rename_i r2 hr2
            have := ih cs gs ge r2 hr2
            cases h
            simp; omega
          · exact ih _ gs ge r h
        · exact ih _ gs ge r h
    | star p =>
      simp only [matchAtoms] at h
      obtain ⟨t, ht, hk⟩ := starGreedy_some p _ s r h
      have := ih t gs ge r hk
      omega
    | groupStart => simp only [matchAtoms] at h; exact ih s _ ge r h
    | groupEnd => simp only [matchAtoms] at h; exact ih s gs _ r h

theorem matchAtoms_progress (p : Char → Bool) (atoms : List Atom) (s : List Char)
    (gs ge : Option (List Char)) (r : List Char × Option (List Char) × Option (List Char))
    (h : matchAtoms (.one p :: atoms) s gs ge = some r) : r.1.length < s.length := by
  cases s with
  | nil => simp [matchAtoms] at h
  | cons c cs =>
    simp only [matchAtoms] at h
    split at h
    · have := matchAtoms_length atoms cs gs ge r h; simp; omega
    · cases h

theorem execFrom_progress (p : Char → Bool) (atoms : List Atom) :
    ∀ (s : List Char) (r : ExecResult), execFrom (.one p :: atoms) s = some r →
      r.rest.length < s.length := by
  intro s
  induction s with
  | nil => intro r h; simp [execFrom, matchAtoms] at h
  | cons c cs ih =>
    intro r h
    simp only [execFrom] at h
    split at h
    · have := ih r h; simp; omega
    · rename_i rest gs ge hm
      cases h
      exact matchAtoms_progress p atoms (c :: cs) none none _ hm

/-- The result of the `exec` loop does not depend on the bound, once the bound
exceeds the length of the input. -/
theorem execAll_fuel (p : Char → Bool) (atoms : List Atom) :
    ∀ (f g : Nat) (s : List Char), s.length < f → s.length < g →
      execAll (.one p :: atoms) f s = execAll (.one p :: atoms) g s := by
  intro f
  induction f with
  | zero => intro g s h; omega
  | succ f ih =>
    intro g s hf hg
    cases g with
    | zero => omega
    | succ g =>
      simp only [execAll]
      cases he : execFrom (.one p :: atoms) s with
      | none => rfl
      | some r =>
        have hlt := execFrom_progress p atoms s r he
        simp only
        rw [ih g r.rest (by omega) (by omega)]

theorem m3u8Patterns_start :
    ∀ pattern ∈ m3u8Patterns, ∃ p atoms, pattern = .one p :: atoms := by
  intro pattern h
  simp only [m3u8Patterns, List.mem_cons, List.mem_singleton, List.not_mem_nil, or_false] at h
  rcases h with rfl | rfl | rfl | rfl <;> exact ⟨_, _, rfl⟩

/-- For each of the four patterns, any number of rounds above the length of
the content gives the matches that `extractM3U8UrlsFromContent` uses. -/
theorem m3u8Patterns_fuel (content : String) (f : Nat) (hf : content.data.length < f) :
    ∀ pattern ∈ m3u8Patterns,
      execAll pattern f content.data = execAll pattern (content.data.length + 1) content.data := by
  intro pattern h
  obtain ⟨p, atoms, rfl⟩ := m3u8Patterns_start pattern h
  exact execAll_fuel p atoms f _ _ hf (Nat.lt_succ_self _)

theorem readContinuation_length :
    ∀ (k : Nat) (s : List Char) (r : List Nat × List Char),
      readContinuation k s = some r → r.2.length ≤ s.length := by
  intro k
  induction k with
  | zero => intro s r h; simp only [readContinuation] at h; cases h; exact le_refl _
  | succ k ih =>
    intro s r h
    simp only [readContinuation] at h
    split at h
    · rename_i a b rest
      split at h
      · split at h
        · simp only [Option.map_eq_some'] at h
          obtain ⟨r2, hr2, rfl⟩ := h
          have := ih rest r2 hr2
          simp; omega
        · cases h
      · cases h
    · cases h

/-- The result of the decoding loop does not depend on the bound, once the
bound exceeds the length of the input. -/
theorem decodeAux_fuel :
    ∀ (f g : Nat) (s : List Char), s.length < f → s.length < g →
      decodeAux f s = decodeAux g s := by
  intro f
  induction f with
  | zero => intro g s h; omega
  | succ f ih =>
    intro g s hf hg
    cases g with
    | zero => omega
    | succ g =>
      simp only [decodeAux]
      split
      · rfl
      · rename_i a b rest
        simp only [List.length_cons] at hf hg
        split
        · split
          · rw [ih g rest (by omega) (by omega)]
          · split
            · rfl
            · split
              · rfl
              · rename_i bs rest2 hrc
                have := readContinuation_length _ _ _ hrc
                simp only at this
                split
                · rfl
                · rw [ih g rest2 (by omega) (by omega)]
        · rfl
      · rfl
      · rename_i c rest _ _
        simp only [List.length_cons] at hf hg
        rw [ih g rest (by omega) (by omega)]

/-! ### C11: the text scan -/

theorem mem_uniqueInOrder {x : String} : ∀ {l : List String}, x ∈ uniqueInOrder l → x ∈ l := by
  intro l
  induction l with
  | nil => intro h; simp [uniqueInOrder] at h
  | cons y ys ih =>
    intro h
    simp only [uniqueInOrder, List.mem_cons, List.mem_filter] at h
    rcases h with h | ⟨h, _⟩
    · exact h ▸ List.mem_cons_self _ _
    · exact List.mem_cons_of_mem _ (ih h)

theorem uniqueInOrder_nodup : ∀ l : List String, (uniqueInOrder l).Nodup := by
  intro l
  induction l with
  | nil => simp [uniqueInOrder]
  | cons y ys ih =>
    simp only [uniqueInOrder, List.nodup_cons, List.mem_filter]
    refine ⟨?_, ih.filter _⟩
    rintro ⟨_, h⟩
    simp at h

/-- Every string that `[...new Set(urls)]` drops is a repetition: the result
has the same elements as the input. -/
theorem mem_uniqueInOrder_iff {x : String} : ∀ {l : List String}, x ∈ uniqueInOrder l ↔ x ∈ l := by
  intro l
  refine ⟨mem_uniqueInOrder, ?_⟩
  induction l with
  | nil => intro h; simp at h
  | cons y ys ih =>
    intro h
    simp only [uniqueInOrder, List.mem_cons, List.mem_filter]
    by_cases hxy : x = y
    · exact Or.inl hxy
    · rcases List.mem_cons.mp h with h | h
      · exact absurd h hxy
      · exact Or.inr ⟨ih h, by simpa using hxy⟩

/-- C11: for every text, `extractM3U8UrlsFromContent` returns a list without
duplicate strings in which every element passes `isValidUrl`; the bounded
`exec` loops behind it have run to their end (any larger bound gives the same
matches); and the text with `https://a.example.com/x.m3u8` once in double and
once in single quotes yields exactly that one URL. -/
theorem extractFromContent_distinct_valid (H : Host) (content : String) :
    (extractM3U8UrlsFromContent H content).Nodup ∧
      (∀ url ∈ extractM3U8UrlsFromContent H content, isValidUrl H url = true) ∧
      (∀ pattern ∈ m3u8Patterns, ∀ bound, content.data.length < bound →
        execAll pattern bound content.data =
          execAll pattern (content.data.length + 1) content.data) ∧
      extractM3U8UrlsFromContent stdHost quotedTwice = ["https://a.example.com/x.m3u8"] := by
  refine ⟨uniqueInOrder_nodup _, ?_, ?_, rfl⟩
  · intro url h
    have h' := mem_uniqueInOrder h
    simp only [List.mem_flatMap, List.mem_filter, Bool.and_eq_true] at h'
    obtain ⟨_, _, _, _, hv⟩ := h'
    exact hv
  · intro pattern hp bound hb
    exact m3u8Patterns_fuel content bound hb pattern hp

/-- The text with the URL in both quoting styles: the four patterns find the
URL four times (twice by the first pattern, once by each quoted pattern), and
one valid element is returned. -/
theorem extractFromContent_distinct_valid_witness :
    m3u8Patterns.flatMap (fun pattern =>
        execAll pattern (quotedTwice.data.length + 1) quotedTwice.data) =
        [ "https://a.example.com/x.m3u8", "https://a.example.com/x.m3u8",
          "https://a.example.com/x.m3u8", "https://a.example.com/x.m3u8" ] ∧
      "https://a.example.com/x.m3u8" ∈ extractM3U8UrlsFromContent stdHost quotedTwice ∧
      isValidUrl stdHost "https://a.example.com/x.m3u8" = true ∧
      execAll (m3u8Patterns.headD []) 1000 quotedTwice.data =
        execAll (m3u8Patterns.headD []) (quotedTwice.data.length + 1) quotedTwice.data :=
  have h := extractFromContent_distinct_valid stdHost quotedTwice
  have hmem : "https://a.example.com/x.m3u8" ∈ extractM3U8UrlsFromContent stdHost quotedTwice := by
    rw [h.2.2.2]; exact List.mem_singleton.mpr rfl
  ⟨rfl, hmem, h.2.1 _ hmem, h.2.2.1 _ (List.mem_cons_self _ _) 1000 (by decide)⟩

/-! ### C12: the choice of the player -/

theorem getSubstitution_plain (matched before after : List Char) :
    ∀ r : List Char, '$' ∉ r → getSubstitution matched before after r = r := by
  intro r
  induction r with
  | nil => intro _; rfl
  | cons c rest ih =>
    intro h
    simp only [List.mem_cons, not_or] at h
    have hc : c ≠ '$' := fun e => h.1 e.symm
    cases rest with
    | nil => rfl
    | cons d rest2 =>
      have := ih h.2
      simp only [getSubstitution, hc, decide_False, Bool.false_and, Bool.false_eq_true,
        if_false]
      rw [this]

/-- With a template found for the selected player, and unless the custom slot
is selected with an empty template, `playVideo` opens one tab and shows the
toast. -/
theorem playVideo_of_template (p : Popup) (url template : String)
    (hget : getPlayer p.players p.defaultPlayer = .str template)
    (hcustom : p.defaultPlayer ≠ "custom" ∨ truthyStr template = true) :
    playVideo p url =
      ([.tabsCreate (replace template urlPlaceholder url), .showToast "Opening in player..."],
        .normal) := by
  unfold playVideo
  rcases hcustom with h | h
  · simp [hget, h]
  · simp [hget, Property.truthy, h]

/-- A URL without `$` is put in place of the first placeholder as it is. -/
theorem replace_plain (template url : String) (before after : List Char)
    (hsplit : splitFirst urlPlaceholder.data template.data = some (before, after))
    (hplain : '$' ∉ url.data) :
    replace template urlPlaceholder url = String.mk (before ++ url.data ++ after) := by
  simp [replace, hsplit, getSubstitution_plain _ _ _ _ hplain]

/-- C12, evaluated at the built-in default.  With no stored preference
`defaultPlayer` is `clementzq`, which is no key of `players`: the lookup gives
`undefined`, the call of `replace` raises a `TypeError`, no tab is opened and
no toast is shown, for every manifest URL.  And with a listed player, a URL
that holds `$$` is not put in verbatim: `replace` reads `$$` in the
replacement as one `$`. -/
theorem playVideo_default_raises (url : String) :
    (loadSettings Popup.constructor (.ok (none, none))).defaultPlayer = "clementzq" ∧
      getPlayer Popup.constructor.players "clementzq" = .undefined ∧
      playVideo Popup.constructor url = ([], .throw .typeError) ∧
      playVideo (loadSettings Popup.constructor (.ok (none, none))) url
        = ([], .throw .typeError) ∧
      playVideo (loadSettings Popup.constructor (.error .typeError)) url
        = ([], .throw .typeError) ∧
      playVideo (selectDefaultPlayer Popup.constructor "vlc")
          "https://cdn.example.com/v1.m3u8?k=a$$b"
        = ([.tabsCreate "vlc://https://cdn.example.com/v1.m3u8?k=a$b",
            .showToast "Opening in player..."], .normal) :=
  ⟨rfl, rfl, rfl, rfl, rfl, rfl⟩

/-! ### C13: `storeM3U8Url` on a parameter value that is no URL -/

/-- C13, evaluated at the input of the claim.  For
`https://site.example/embed?file=stream.m3u8` the matcher returns the decoded
value `stream.m3u8`; `extractSubdomain` calls `new URL` on it outside of any
`try`, and the `TypeError` leaves `storeM3U8Url`.  By then the key of the tab
has been created with an empty list, so the storage has changed although no
record was appended, and the badge is not updated. -/
theorem storeM3U8Url_raises :
    extractM3U8Url stdHost "https://site.example/embed?file=stream.m3u8"
        = .ok (some "stream.m3u8") ∧
      extractSubdomain stdHost "stream.m3u8" = .error .typeError ∧
      (storeM3U8Url stdHost 5000 1 "https://site.example/embed?file=stream.m3u8" World.init).2
        = .throw .typeError ∧
      World.init.m3u8Storage 1 = none ∧
      (storeM3U8Url stdHost 5000 1 "https://site.example/embed?file=stream.m3u8"
        World.init).1.m3u8Storage 1 = some [] ∧
      (storeM3U8Url stdHost 5000 1 "https://site.example/embed?file=stream.m3u8"
        World.init).1.effects = [] :=
  ⟨rfl, rfl, rfl, rfl, rfl, rfl⟩

end M3U8
